import Mathlib

/-!
DFA minimisation by partition refinement (`minimization of DFA/main.c`).

A shallow embedding of `minimize_dfa` and of the helpers it relies on,
followed by the node table of the expression DAG (`DAG/main.c`).

Modelling conventions.
* C arrays are total functions on `Nat`; a write `a[i] = v` is `store a i v`.
  The capacity constants `MAX_STATES` / `MAX_ALPHABET_SIZE` only size the
  buffers, so every statement below holds in particular for automata that
  fit into them.
* Values that the source keeps in an `int` and that may hold the marker `-1`
  (class ids, transition targets, the start state, the representative) are
  `Int`; an array access `a[v]` with such a value is `a v.toNat`.
* Counters that start at `0` and are only incremented are `Nat`.
* The `do { ... } while (changed)` loop is run with explicit fuel and returns
  `none` when the fuel is exhausted.
-/

namespace DFAMin

/-! ## Data model -/

/-- The capacity `MAX_STATES` of the source. -/
def MAX_STATES : Nat := 20

/-- The capacity `MAX_ALPHABET_SIZE` of the source. -/
def MAX_ALPHABET_SIZE : Nat := 5

/-- The `DFA` struct of the source. -/
structure DFA where
  num_states : Nat
  num_alphabet_symbols : Nat
  alphabet : Nat → Char
  transitions : Nat → Nat → Int
  start_state : Int
  is_final : Nat → Bool

/-- Array write `a[i] = v`. -/
def store {α : Type} (a : Nat → α) (i : Nat) (v : α) : Nat → α :=
  fun j => if j = i then v else a j

/-- Two-dimensional array write `a[i][j] = v`. -/
def store2 {α : Type} (a : Nat → Nat → α) (i j : Nat) (v : α) : Nat → Nat → α :=
  fun x y => if x = i ∧ y = j then v else a x y

/-- A validly constructed automaton: at least one state and one symbol, start
state and every transition target inside `0..num_states-1`. -/
def Valid (A : DFA) : Prop :=
  1 ≤ A.num_states ∧ 1 ≤ A.num_alphabet_symbols ∧
  (0 ≤ A.start_state ∧ A.start_state < A.num_states) ∧
  ∀ s, s < A.num_states → ∀ k, k < A.num_alphabet_symbols →
    0 ≤ A.transitions s k ∧ A.transitions s k < A.num_states

/-- A string of alphabet indices of `A`. -/
def IsWord (A : DFA) (w : List Nat) : Prop := ∀ k ∈ w, k < A.num_alphabet_symbols

/-- The state reached from state `s` after reading `w`. -/
def run (A : DFA) (s : Nat) : List Nat → Nat
  | [] => s
  | k :: w => run A (A.transitions s k).toNat w

/-- Whether reading `w` from state `s` ends in an accepting state. -/
def accepts_from (A : DFA) (s : Nat) (w : List Nat) : Bool :=
  A.is_final (run A s w)

/-- Whether `A` accepts `w`, started in its start state. -/
def accepts (A : DFA) (w : List Nat) : Bool :=
  accepts_from A A.start_state.toNat w

/-! ## `get_alphabet_index` (lines 130-137) -/

/-- The search loop of `get_alphabet_index`, from index `i` with `m` indices left. -/
def get_alphabet_index_from (alphabet : Nat → Char) (symbol : Char) : Nat → Nat → Int
  | _, 0 => -1
  | i, m + 1 =>
    if alphabet i = symbol then (i : Int)
    else get_alphabet_index_from alphabet symbol (i + 1) m

/-- The index of `symbol` in the alphabet of `dfa`, or `-1`. -/
def get_alphabet_index (dfa : DFA) (symbol : Char) : Int :=
  get_alphabet_index_from dfa.alphabet symbol 0 dfa.num_alphabet_symbols

/-! ## `get_dfa_input` (lines 55-127)

The input is modelled after tokenisation: each field holds what the
corresponding `scanf` calls read. A transition entry is the three items
current state, symbol and next state, together with the information whether
a newline character follows it, which is what the loop
`while (getchar() != '\n');` of line 109 looks for. -/

/-- How a call ends: it returns, the program exits through
`exit(EXIT_FAILURE)`, or control never leaves a loop. -/
inductive Outcome (α : Type) where
  | returned (a : α)
  | exited
  | never_returns

/-- One entry typed at the `Transition:` prompt: current state, symbol, next
state, and whether the entry is followed by a newline character (the end of
the input follows the last entry). -/
structure TransitionEntry where
  current_state : Int
  symbol_char : Char
  next_state : Int
  newline : Bool

/-- Everything typed at the prompts of `get_dfa_input`. The lists of final
states and of transitions hold the items typed up to the end of the input;
the `-1` that ends a list, if typed, is an item of the list. -/
structure DFAInput where
  num_states : Int
  num_alphabet_symbols : Int
  alphabet : Nat → Char
  start_state : Int
  final_states : List Int
  transitions : List TransitionEntry

/-- The loop of lines 86-92 over the final states typed. -/
def read_final_states (num_states : Nat) : (Nat → Bool) → List Int → (Nat → Bool)
  | f, [] => f
  | f, final_state :: rest =>
    if final_state = -1 then f
    else if final_state < 0 ∨ final_state ≥ (num_states : Int) then
      read_final_states num_states f rest
    else read_final_states num_states (store f final_state.toNat true) rest

/-- Lines 113-125, for an entry whose current state passed the test of line
106: an entry with an invalid symbol or next state is reported and skipped
(`continue`), any other entry is stored. -/
def read_transition (dfa : DFA) (e : TransitionEntry) : DFA :=
  if get_alphabet_index dfa e.symbol_char = -1 then dfa
  else if e.next_state < 0 ∨ e.next_state ≥ (dfa.num_states : Int) then dfa
  else
    { dfa with
      transitions :=
        store2 dfa.transitions e.current_state.toNat
          (get_alphabet_index dfa e.symbol_char).toNat e.next_state }

/-- The loop of lines 101-126. The flag says whether control is inside the
loop `while (getchar() != '\n');` of line 109, entered after an out-of-range
current state: there the input is discarded up to and including the next
newline character, and control never leaves the loop when the input ends
first. Outside it, the loop of line 101 ends at the end of the input or at an
entry whose current state is `-1`. -/
def read_transitions : Bool → DFA → List TransitionEntry → Outcome DFA
  | true, _, [] => Outcome.never_returns
  | true, dfa, e :: rest => read_transitions (!e.newline) dfa rest
  | false, dfa, [] => Outcome.returned dfa
  | false, dfa, e :: rest =>
    if e.current_state = -1 then Outcome.returned dfa
    else if e.current_state < 0 ∨ e.current_state ≥ (dfa.num_states : Int) then
      read_transitions (!e.newline) dfa rest
    else read_transitions false (read_transition dfa e) rest

/-- The function `get_dfa_input(dfa)`: `dfa0` is the previous contents of
`*dfa` (an uninitialised local of `main`), the result its contents on
return. -/
def get_dfa_input (inp : DFAInput) (dfa0 : DFA) : Outcome DFA :=
  if inp.num_states ≤ 0 ∨ inp.num_states > (MAX_STATES : Int) then Outcome.exited
  else if inp.num_alphabet_symbols ≤ 0 ∨
      inp.num_alphabet_symbols > (MAX_ALPHABET_SIZE : Int) then Outcome.exited
  else if inp.start_state < 0 ∨ inp.start_state ≥ inp.num_states then Outcome.exited
  else
    read_transitions false
      { num_states := inp.num_states.toNat
        num_alphabet_symbols := inp.num_alphabet_symbols.toNat
        alphabet :=
          (List.range inp.num_alphabet_symbols.toNat).foldl
            (fun a i => store a i (inp.alphabet i)) dfa0.alphabet
        transitions := dfa0.transitions
        start_state := inp.start_state
        is_final :=
          read_final_states inp.num_states.toNat (fun _ => false) inp.final_states }
      inp.transitions

/-! ## Step 1 of `minimize_dfa`: the initial partition (lines 200-219) -/

/-- The variables of step 1. -/
structure InitVars where
  state_partition_id : Nat → Int
  num_current_partitions : Nat
  final_partition_id : Int
  non_final_partition_id : Int

/-- One iteration of the loop of lines 204-216. -/
def init_step (A : DFA) (v : InitVars) (i : Nat) : InitVars :=
  if A.is_final i then
    if v.final_partition_id = -1 then
      { state_partition_id := store v.state_partition_id i (v.num_current_partitions : Int)
        num_current_partitions := v.num_current_partitions + 1
        final_partition_id := (v.num_current_partitions : Int)
        non_final_partition_id := v.non_final_partition_id }
    else
      { state_partition_id := store v.state_partition_id i v.final_partition_id
        num_current_partitions := v.num_current_partitions
        final_partition_id := v.final_partition_id
        non_final_partition_id := v.non_final_partition_id }
  else
    if v.non_final_partition_id = -1 then
      { state_partition_id := store v.state_partition_id i (v.num_current_partitions : Int)
        num_current_partitions := v.num_current_partitions + 1
        final_partition_id := v.final_partition_id
        non_final_partition_id := (v.num_current_partitions : Int) }
    else
      { state_partition_id := store v.state_partition_id i v.non_final_partition_id
        num_current_partitions := v.num_current_partitions
        final_partition_id := v.final_partition_id
        non_final_partition_id := v.non_final_partition_id }

/-- The loop of lines 204-216, started from the contents `g` of the global
array (all zero when the program starts). -/
def init_loop (A : DFA) (g : Nat → Int) : InitVars :=
  (List.range A.num_states).foldl (init_step A)
    { state_partition_id := g, num_current_partitions := 0,
      final_partition_id := -1, non_final_partition_id := -1 }

/-- The array `state_partition_id` after step 1, `ids0` being its contents
when `minimize_dfa` is entered. -/
def initial_ids (ids0 : Nat → Int) (A : DFA) : Nat → Int :=
  (init_loop A ids0).state_partition_id

/-- The counter `num_current_partitions` after step 1. -/
def initial_count (ids0 : Nat → Int) (A : DFA) : Nat :=
  (init_loop A ids0).num_current_partitions

/-! ## Step 2: one refinement round (lines 232-283) -/

/-- The flag `distinguishable` after the loop of lines 266-275. -/
def distinguishable (A : DFA) (spid : Nat → Int) (s1 s2 : Nat) : Bool :=
  (List.range A.num_alphabet_symbols).any fun k =>
    decide (spid (A.transitions s1 k).toNat ≠ spid (A.transitions s2 k).toNat)

/-- One iteration of the loop over `j` (lines 258-281), for
`s2 = states_in_current_partition[j]`. -/
def scan_step (A : DFA) (spid : Nat → Int) (s1 : Nat) (gid : Int)
    (new_ids : Nat → Int) (s2 : Nat) : Nat → Int :=
  if new_ids s2 ≠ -1 then new_ids
  else if distinguishable A spid s1 s2 then new_ids
  else store new_ids s2 gid

/-- The loop over `i` (lines 248-282) on the members of one class that are
still to be visited; the pair is `(new_partition_ids, next_new_partition_id)`. -/
def refine_group (A : DFA) (spid : Nat → Int) :
    List Nat → (Nat → Int) × Nat → (Nat → Int) × Nat
  | [], st => st
  | s1 :: rest, st =>
    if st.1 s1 ≠ -1 then refine_group A spid rest st
    else
      refine_group A spid rest
        ((rest.foldl (scan_step A spid s1 (st.2 : Int)) (store st.1 s1 (st.2 : Int))), st.2 + 1)

/-- The array `states_in_current_partition` built by lines 239-245. -/
def members (A : DFA) (spid : Nat → Int) (p_id : Nat) : List Nat :=
  (List.range A.num_states).filter fun i => decide (spid i = (p_id : Int))

/-- The body of the loop over `p_id` (lines 237-283). -/
def refine_class (A : DFA) (spid : Nat → Int) (st : (Nat → Int) × Nat) (p_id : Nat) :
    (Nat → Int) × Nat :=
  refine_group A spid (members A spid p_id) st

/-- Lines 232-283: `(new_partition_ids, next_new_partition_id)` after the round. -/
def refine_round (A : DFA) (spid : Nat → Int) (ncp : Nat) : (Nat → Int) × Nat :=
  (List.range ncp).foldl (refine_class A spid) (fun _ => -1, 0)

/-- Lines 286-301: the value of `changed` after the stabilisation check. -/
def changed_flag (A : DFA) (spid : Nat → Int) (ncp : Nat) (r : (Nat → Int) × Nat) : Bool :=
  if r.2 = ncp then
    !((List.range A.num_states).all fun i => decide (spid i = r.1 i))
  else true

/-- Lines 304-306: copy the new ids back into `state_partition_id`. -/
def copy_back (A : DFA) (spid new_ids : Nat → Int) : Nat → Int :=
  (List.range A.num_states).foldl (fun g i => store g i (new_ids i)) spid

/-- The variables that live across iterations of the do-while loop. -/
structure LoopVars where
  state_partition_id : Nat → Int
  num_current_partitions : Nat
  iteration : Nat

/-- The body of the do-while loop without its exit test (lines 228-309). -/
def round_body (A : DFA) (v : LoopVars) : LoopVars :=
  { state_partition_id :=
      copy_back A v.state_partition_id
        (refine_round A v.state_partition_id v.num_current_partitions).1
    num_current_partitions :=
      (refine_round A v.state_partition_id v.num_current_partitions).2
    iteration := v.iteration + 1 }

/-- The do-while loop of lines 227-311. -/
def refine_loop (A : DFA) : Nat → LoopVars → Option LoopVars
  | 0, _ => none
  | fuel + 1, v =>
    if changed_flag A v.state_partition_id v.num_current_partitions
        (refine_round A v.state_partition_id v.num_current_partitions) then
      refine_loop A fuel (round_body A v)
    else some (round_body A v)

/-- The loop variables on entry to the do-while loop. -/
def loop_entry (ids0 : Nat → Int) (A : DFA) : LoopVars :=
  { state_partition_id := initial_ids ids0 A
    num_current_partitions := initial_count ids0 A
    iteration := 0 }

/-- The loop variables after `r` rounds, the exit test ignored. -/
def after_rounds (ids0 : Nat → Int) (A : DFA) : Nat → LoopVars
  | 0 => loop_entry ids0 A
  | r + 1 => round_body A (after_rounds ids0 A r)

/-- Steps 1 and 2 together: the stabilised partition, its class count and the
iteration counter. -/
def final_partition (ids0 : Nat → Int) (A : DFA) (fuel : Nat) : Option LoopVars :=
  refine_loop A fuel (loop_entry ids0 A)

/-! ## Step 3: reconstruction (lines 317-348) -/

/-- Line 319, the `memcpy` of the alphabet. The source takes the length from
`dfa->num_alphabet_symbols`, where no variable `dfa` is in scope; the length
is read from `original_dfa`, whose alphabet is the one copied (after line 318
`minimized_dfa` holds the same count, so either struct in scope gives this
length). -/
def copy_alphabet (original_dfa : DFA) (dst : Nat → Char) : Nat → Char :=
  (List.range original_dfa.num_alphabet_symbols).foldl
    (fun a i => store a i (original_dfa.alphabet i)) dst

/-- Lines 325-330: the accepting flags of the minimised automaton. -/
def build_is_final (A : DFA) (spid : Nat → Int) : Nat → Bool :=
  (List.range A.num_states).foldl
    (fun f i => if A.is_final i then store f (spid i).toNat true else f)
    (fun _ => false)

/-- The search of lines 335-341, from state `i` with `m` states left. -/
def find_representative_from (spid : Nat → Int) (p_id : Nat) : Nat → Nat → Int
  | _, 0 => -1
  | i, m + 1 =>
    if spid i = (p_id : Int) then (i : Int)
    else find_representative_from spid p_id (i + 1) m

/-- Lines 335-341: `representative_state` for class `p_id`. -/
def find_representative (A : DFA) (spid : Nat → Int) (p_id : Nat) : Int :=
  find_representative_from spid p_id 0 A.num_states

/-- Lines 343-347: the row of class `p_id`. -/
def build_row (A : DFA) (spid : Nat → Int) (t : Nat → Nat → Int) (p_id : Nat) :
    Nat → Nat → Int :=
  (List.range A.num_alphabet_symbols).foldl
    (fun t j =>
      store2 t p_id j
        (spid (A.transitions (find_representative A spid p_id).toNat j).toNat))
    t

/-- Lines 333-348: the transition table of the minimised automaton, written
over the previous contents `t0` of the output table. -/
def build_transitions (A : DFA) (spid : Nat → Int) (ncp : Nat) (t0 : Nat → Nat → Int) :
    Nat → Nat → Int :=
  (List.range ncp).foldl (build_row A spid) t0

/-- Step 3, writing into the output struct whose previous contents are `out`. -/
def reconstruct (original_dfa : DFA) (v : LoopVars) (out : DFA) : DFA :=
  { num_states := v.num_current_partitions
    num_alphabet_symbols := original_dfa.num_alphabet_symbols
    alphabet := copy_alphabet original_dfa out.alphabet
    start_state := v.state_partition_id original_dfa.start_state.toNat
    is_final := build_is_final original_dfa v.state_partition_id
    transitions :=
      build_transitions original_dfa v.state_partition_id v.num_current_partitions
        out.transitions }

/-- The function `minimize_dfa(original_dfa, minimized_dfa)`: `ids0` is the
contents of the global `state_partition_id` on entry, `out` the previous
contents of `*minimized_dfa`, the result its contents on return. -/
def minimize_dfa (fuel : Nat) (ids0 : Nat → Int) (original_dfa : DFA) (out : DFA) :
    Option DFA :=
  (final_partition ids0 original_dfa fuel).map fun v => reconstruct original_dfa v out

/-! ## Example automata -/

/-- The global array `state_partition_id` when the program starts. -/
def zero_ids : Nat → Int := fun _ => 0

/-- An output struct with all cells zero. -/
def blank : DFA :=
  { num_states := 0, num_alphabet_symbols := 0, alphabet := fun _ => 'x',
    transitions := fun _ _ => 0, start_state := 0, is_final := fun _ => false }

/-- Two states over one symbol: state 0 accepting with a self-loop, state 1
non-accepting with a self-loop and unreachable from the start state 0. -/
def exUnreachable : DFA :=
  { num_states := 2, num_alphabet_symbols := 1, alphabet := fun _ => 'a',
    transitions := fun s _ => if s = 0 then 0 else 1,
    start_state := 0, is_final := fun s => decide (s = 0) }

/-- One accepting state with a self-loop on the single symbol. -/
def exOne : DFA :=
  { num_states := 1, num_alphabet_symbols := 1, alphabet := fun _ => 'a',
    transitions := fun _ _ => 0, start_state := 0, is_final := fun _ => true }

/-- Two states over one symbol, 0 -> 1 -> 1, only state 1 accepting. -/
def exLate : DFA :=
  { num_states := 2, num_alphabet_symbols := 1, alphabet := fun _ => 'a',
    transitions := fun _ _ => 1, start_state := 0, is_final := fun s => decide (s = 1) }

/-- Four states over two symbols, accepting state 3; states 1 and 2 are
equivalent. -/
def exFour : DFA :=
  { num_states := 4, num_alphabet_symbols := 2,
    alphabet := fun i => if i = 0 then '0' else '1',
    transitions := fun s k =>
      if s = 0 then (if k = 0 then 1 else 2)
      else if s = 1 then 3
      else if s = 2 then 3
      else 3,
    start_state := 0, is_final := fun s => decide (s = 3) }

/-- Two accepting states over the single symbol `0`, each with a self-loop. -/
def exTwoAccepting : DFA :=
  { num_states := 2, num_alphabet_symbols := 1, alphabet := fun _ => '0',
    transitions := fun s _ => (s : Int), start_state := 0, is_final := fun _ => true }

/-- The transition line `0 a 2`, whose next state is out of range for a
two-state automaton. -/
def exBadEntry : TransitionEntry :=
  { current_state := 0, symbol_char := 'a', next_state := 2, newline := true }

/-- The transition line `7 a 1` typed last, without a newline after it. -/
def exUnterminatedEntry : TransitionEntry :=
  { current_state := 7, symbol_char := 'a', next_state := 1, newline := false }

/-- Input for two states over `a` with final state 1, whose first transition
line names the next state 2 and is followed by the lines
`0 a 1`, `1 a 1` and `-1`. -/
def exBadInput : DFAInput :=
  { num_states := 2, num_alphabet_symbols := 1, alphabet := fun _ => 'a',
    start_state := 0, final_states := [1, -1],
    transitions :=
      [exBadEntry,
       { current_state := 0, symbol_char := 'a', next_state := 1, newline := true },
       { current_state := 1, symbol_char := 'a', next_state := 1, newline := true },
       { current_state := -1, symbol_char := 'a', next_state := 0, newline := true }] }

/-! ## Specification-side predicates -/

/-- The partition invariant: the first `n` states carry ids in `0..k-1` and
every id in `0..k-1` is carried by some state. -/
def PInv (n : Nat) (P : Nat → Int) (k : Nat) : Prop :=
  (∀ i, i < n → 0 ≤ P i ∧ P i < (k : Int)) ∧
  (∀ c, c < k → ∃ i, i < n ∧ P i = (c : Int))

/-- Equal signatures: on every symbol the targets of `s` and `t` lie in the
same class of `P`. -/
def SameSig (A : DFA) (P : Nat → Int) (s t : Nat) : Prop :=
  ∀ k, k < A.num_alphabet_symbols →
    P (A.transitions s k).toNat = P (A.transitions t k).toNat

/-- Myhill-Nerode equivalence of two states of `A`. -/
def Equivalent (A : DFA) (s t : Nat) : Prop :=
  ∀ w, IsWord A w → accepts_from A s w = accepts_from A t w

/-- Every state of `A` is reached from the start state by some word. -/
def AllReachable (A : DFA) : Prop :=
  ∀ s, s < A.num_states → ∃ w, IsWord A w ∧ run A A.start_state.toNat w = s

/-- The automata `A` and `B` accept the same words over the alphabet of `A`. -/
def SameLanguage (A B : DFA) : Prop :=
  ∀ w, IsWord A w → accepts A w = accepts B w

instance (A : DFA) : Decidable (Valid A) := by
  unfold Valid; infer_instance

instance (A : DFA) (w : List Nat) : Decidable (IsWord A w) := by
  unfold IsWord; infer_instance

instance (A : DFA) (P : Nat → Int) (s t : Nat) : Decidable (SameSig A P s t) := by
  unfold SameSig; infer_instance

/-! ## Invariants used in the proofs -/

/-- The invariant of the loop of step 1 after the first `m` states. -/
def InitInv (A : DFA) (m : Nat) (v : InitVars) : Prop :=
  (∀ i, i < m → v.state_partition_id i =
      if A.is_final i = true then v.final_partition_id else v.non_final_partition_id) ∧
  ((m = 0 ∧ v.final_partition_id = -1 ∧ v.non_final_partition_id = -1 ∧
      v.num_current_partitions = 0) ∨
   (0 < m ∧ v.final_partition_id = 0 ∧ v.non_final_partition_id = -1 ∧
      v.num_current_partitions = 1 ∧ ∀ i, i < m → A.is_final i = true) ∨
   (0 < m ∧ v.final_partition_id = -1 ∧ v.non_final_partition_id = 0 ∧
      v.num_current_partitions = 1 ∧ ∀ i, i < m → A.is_final i = false) ∨
   (v.final_partition_id = 0 ∧ v.non_final_partition_id = 1 ∧
      v.num_current_partitions = 2 ∧ A.is_final 0 = true ∧
      ∃ i, i < m ∧ A.is_final i = false) ∨
   (v.final_partition_id = 1 ∧ v.non_final_partition_id = 0 ∧
      v.num_current_partitions = 2 ∧ A.is_final 0 = false ∧
      ∃ i, i < m ∧ A.is_final i = true))

/-- The invariant of the loop over the members `L` of one class, `base` being
the value of `next_new_partition_id` when the class is entered. -/
def GroupInv (A : DFA) (P : Nat → Int) (L : List Nat) (base : Nat)
    (st : (Nat → Int) × Nat) : Prop :=
  (∀ s, s ∈ L → st.1 s = -1 ∨ ((base : Int) ≤ st.1 s ∧ st.1 s < (st.2 : Int))) ∧
  (∀ s, s ∈ L → ∀ t, t ∈ L → st.1 s ≠ -1 →
    (st.1 t = st.1 s ↔ SameSig A P s t)) ∧
  (∀ c, base ≤ c → c < st.2 → ∃ s, s ∈ L ∧ st.1 s = (c : Int)) ∧
  base ≤ st.2

/-- The invariant of the loop over `p_id`, before class `p` is processed. -/
def RoundInv (A : DFA) (P : Nat → Int) (p : Nat) (st : (Nat → Int) × Nat) : Prop :=
  (∀ i, i < A.num_states → P i < (p : Int) → 0 ≤ st.1 i ∧ st.1 i < (st.2 : Int)) ∧
  (∀ i, (p : Int) ≤ P i → st.1 i = -1) ∧
  (∀ c, c < st.2 → ∃ i, i < A.num_states ∧ P i < (p : Int) ∧ st.1 i = (c : Int)) ∧
  (∀ i, i < A.num_states → ∀ j, j < A.num_states → P i < (p : Int) → P j < (p : Int) →
    (st.1 i = st.1 j ↔ (P i = P j ∧ SameSig A P i j))) ∧
  p ≤ st.2 ∧
  (∀ i, i < A.num_states → P i < (p : Int) →
    P i ≤ st.1 i ∧ st.1 i - P i ≤ (st.2 : Int) - (p : Int))

/-- What the loop maintains: the partition invariant, agreement of acceptance
inside a class, and a separating word for states of different classes. -/
def LoopInv (A : DFA) (v : LoopVars) : Prop :=
  PInv A.num_states v.state_partition_id v.num_current_partitions ∧
  (∀ i, i < A.num_states → ∀ j, j < A.num_states →
    v.state_partition_id i = v.state_partition_id j → A.is_final i = A.is_final j) ∧
  (∀ i, i < A.num_states → ∀ j, j < A.num_states →
    v.state_partition_id i ≠ v.state_partition_id j →
    ∃ w, IsWord A w ∧ accepts_from A i w ≠ accepts_from A j w)

/-- A loop variable state at which one more round changes nothing. -/
def Stable (A : DFA) (v : LoopVars) : Prop :=
  changed_flag A v.state_partition_id v.num_current_partitions
    (refine_round A v.state_partition_id v.num_current_partitions) = false

/-- The properties of the partition that step 3 consumes. -/
def FinalSpec (A : DFA) (v : LoopVars) : Prop :=
  LoopInv A v ∧ Stable A v ∧
  (∀ i, i < A.num_states → ∀ j, j < A.num_states →
    v.state_partition_id i = v.state_partition_id j → SameSig A v.state_partition_id i j)

end DFAMin

/-! ## The expression DAG (`DAG/main.c`)

A `struct DAGNode *` is modelled by the index at which `create_node` stored
the node in `dag_nodes`: every node is allocated once and stored at
`dag_nodes[id]`, so two pointers to nodes of the table are equal iff the
indices are. The union `NodeData` is modelled by a record with the fields of
both members; the source reads only the member that `type` names.
`exit(EXIT_FAILURE)` is the result `none`; `malloc` is taken to succeed, and
`raw` stands for the contents of the memory it returns. -/

namespace DAG

/-- The enum `NodeType`. -/
inductive NodeType where
  | NODE_VAR
  | NODE_OP
  deriving DecidableEq

/-- The enum `OpType`. -/
inductive OpType where
  | OP_MUL
  | OP_ADD
  deriving DecidableEq

/-- The union `NodeData`: `var_name` is `var_name[0]`, the other fields are
the members of `op`. -/
structure NodeData where
  var_name : Char
  op_type : OpType
  left : Nat
  right : Nat

/-- The struct `DAGNode`. -/
structure DAGNode where
  id : Nat
  type : NodeType
  data : NodeData

/-- The capacity `MAX_NODES`. -/
def MAX_NODES : Nat := 100

/-- The globals `dag_nodes` and `next_node_id`. -/
structure DAGTable where
  dag_nodes : Nat → DAGNode
  next_node_id : Nat

/-- The function `create_node(type)` (lines 48-63): the new table and the
node returned, or `none` when the table is full. -/
def create_node (t : DAGTable) (type : NodeType) (raw : NodeData) :
    Option (DAGTable × Nat) :=
  if t.next_node_id ≥ MAX_NODES then none
  else
    some
      ({ dag_nodes :=
          DFAMin.store t.dag_nodes t.next_node_id
            { id := t.next_node_id, type := type, data := raw }
         next_node_id := t.next_node_id + 1 },
        t.next_node_id)

/-- The test of line 69 on one node. -/
def var_matches (n : DAGNode) (var : Char) : Bool :=
  decide (n.type = NodeType.NODE_VAR) && decide (n.data.var_name = var)

/-- The test of lines 83-86 on one node. -/
def op_matches (n : DAGNode) (op_type : OpType) (left right : Nat) : Bool :=
  decide (n.type = NodeType.NODE_OP) && decide (n.data.op_type = op_type) &&
    decide (n.data.left = left) && decide (n.data.right = right)

/-- The search loop of lines 68-72, from index `i` with `m` indices left. -/
def find_var_from (dag_nodes : Nat → DAGNode) (var : Char) : Nat → Nat → Option Nat
  | _, 0 => none
  | i, m + 1 =>
    if var_matches (dag_nodes i) var then some i
    else find_var_from dag_nodes var (i + 1) m

/-- The search loop of lines 82-89, from index `i` with `m` indices left. -/
def find_op_from (dag_nodes : Nat → DAGNode) (op_type : OpType) (left right : Nat) :
    Nat → Nat → Option Nat
  | _, 0 => none
  | i, m + 1 =>
    if op_matches (dag_nodes i) op_type left right then some i
    else find_op_from dag_nodes op_type left right (i + 1) m

/-- The function `get_var_node(var)` (lines 66-78). -/
def get_var_node (t : DAGTable) (var : Char) (raw : NodeData) : Option (DAGTable × Nat) :=
  match find_var_from t.dag_nodes var 0 t.next_node_id with
  | some i => some (t, i)
  | none =>
    match create_node t NodeType.NODE_VAR raw with
    | none => none
    | some (t1, node) =>
      some
        ({ dag_nodes :=
            DFAMin.store t1.dag_nodes node
              { id := (t1.dag_nodes node).id, type := (t1.dag_nodes node).type,
                data :=
                  { var_name := var, op_type := (t1.dag_nodes node).data.op_type,
                    left := (t1.dag_nodes node).data.left,
                    right := (t1.dag_nodes node).data.right } }
           next_node_id := t1.next_node_id },
          node)

/-- The function `get_op_node(op_type, left, right)` (lines 80-96). -/
def get_op_node (t : DAGTable) (op_type : OpType) (left right : Nat) (raw : NodeData) :
    Option (DAGTable × Nat) :=
  match find_op_from t.dag_nodes op_type left right 0 t.next_node_id with
  | some i => some (t, i)
  | none =>
    match create_node t NodeType.NODE_OP raw with
    | none => none
    | some (t1, node) =>
      some
        ({ dag_nodes :=
            DFAMin.store t1.dag_nodes node
              { id := (t1.dag_nodes node).id, type := (t1.dag_nodes node).type,
                data :=
                  { var_name := (t1.dag_nodes node).data.var_name, op_type := op_type,
                    left := left, right := right } }
           next_node_id := t1.next_node_id },
          node)

/-- The nodes that `main` holds after line 158. -/
structure MainNodes where
  table : DAGTable
  node_a : Nat
  node_b : Nat
  node_mul_ab_1 : Nat
  node_mul_ab_2 : Nat
  node_add : Nat

/-- Lines 137-158 of `main`, the construction of `a*b + (a*b)`, started from
the table `t0`; `ra`, `rb`, `r1`, `r2`, `r3` are the contents of the memory
that the five calls would obtain from `malloc`. -/
def build_main (t0 : DAGTable) (ra rb r1 r2 r3 : NodeData) : Option MainNodes :=
  match get_var_node t0 'a' ra with
  | none => none
  | some (t1, node_a) =>
    match get_var_node t1 'b' rb with
    | none => none
    | some (t2, node_b) =>
      match get_op_node t2 OpType.OP_MUL node_a node_b r1 with
      | none => none
      | some (t3, node_mul_ab_1) =>
        match get_op_node t3 OpType.OP_MUL node_a node_b r2 with
        | none => none
        | some (t4, node_mul_ab_2) =>
          match get_op_node t4 OpType.OP_ADD node_mul_ab_1 node_mul_ab_2 r3 with
          | none => none
          | some (t5, node_add) =>
            some
              { table := t5, node_a := node_a, node_b := node_b,
                node_mul_ab_1 := node_mul_ab_1, node_mul_ab_2 := node_mul_ab_2,
                node_add := node_add }

/-- A node is the operation `op_type` on the nodes `left` and `right`. -/
def IsOpNode (n : DAGNode) (op_type : OpType) (left right : Nat) : Prop :=
  n.type = NodeType.NODE_OP ∧ n.data.op_type = op_type ∧ n.data.left = left ∧
    n.data.right = right

/-- A node is the variable `var`. -/
def IsVarNode (n : DAGNode) (var : Char) : Prop :=
  n.type = NodeType.NODE_VAR ∧ n.data.var_name = var

end DAG

namespace DFAMin

/-! ## Arrays and simple loops -/

theorem store_same {α : Type} (a : Nat → α) (i : Nat) (v : α) : store a i v i = v := by
  simp [store]

theorem store_other {α : Type} (a : Nat → α) (i j : Nat) (v : α) (h : j ≠ i) :
    store a i v j = a j := by
  simp [store, h]

theorem foldl_store_range {α : Type} (f g : Nat → α) (n : Nat) :
    (List.range n).foldl (fun a i => store a i (f i)) g =
      fun j => if j < n then f j else g j := by
  induction n with
  | zero => simp
  | succ n ih =>
    rw [List.range_succ, List.foldl_append, ih]
    funext j
    simp only [List.foldl_cons, List.foldl_nil, store]
    by_cases h1 : j = n
    · subst h1; simp
    · by_cases h2 : j < n
      · have : j < n + 1 := by omega
        simp [h1, h2, this]
      · have : ¬ j < n + 1 := by omega
        simp [h1, h2, this]

theorem copy_back_eq (A : DFA) (spid new_ids : Nat → Int) :
    copy_back A spid new_ids = fun j => if j < A.num_states then new_ids j else spid j := by
  unfold copy_back
  exact foldl_store_range new_ids spid A.num_states

theorem copy_alphabet_eq (A : DFA) (dst : Nat → Char) :
    copy_alphabet A dst =
      fun j => if j < A.num_alphabet_symbols then A.alphabet j else dst j := by
  unfold copy_alphabet
  exact foldl_store_range A.alphabet dst A.num_alphabet_symbols

theorem build_is_final_aux (A : DFA) (P : Nat → Int) (n c : Nat) :
    ((List.range n).foldl
      (fun f i => if A.is_final i then store f (P i).toNat true else f)
      (fun _ => false)) c = true ↔
    ∃ i, i < n ∧ A.is_final i = true ∧ (P i).toNat = c := by
  induction n with
  | zero => simp
  | succ n ih =>
    rw [List.range_succ, List.foldl_append]
    simp only [List.foldl_cons, List.foldl_nil]
    by_cases hf : A.is_final n = true
    · simp only [hf, if_true]
      by_cases hc : c = (P n).toNat
      · subst hc
        rw [store_same]
        simp only [true_iff]
        exact ⟨n, by omega, hf, rfl⟩
      · rw [store_other _ _ _ _ hc, ih]
        constructor
        · rintro ⟨i, hi, h1, h2⟩
          exact ⟨i, by omega, h1, h2⟩
        · rintro ⟨i, hi, h1, h2⟩
          have : i ≠ n := by
            rintro rfl
            exact hc h2.symm
          exact ⟨i, by omega, h1, h2⟩
    · simp only [hf]
      rw [if_neg (by simp), ih]
      constructor
      · rintro ⟨i, hi, h1, h2⟩
        exact ⟨i, by omega, h1, h2⟩
      · rintro ⟨i, hi, h1, h2⟩
        have : i ≠ n := by
          rintro rfl
          exact hf h1
        exact ⟨i, by omega, h1, h2⟩

theorem build_is_final_iff (A : DFA) (P : Nat → Int) (c : Nat) :
    build_is_final A P c = true ↔
      ∃ i, i < A.num_states ∧ A.is_final i = true ∧ (P i).toNat = c :=
  build_is_final_aux A P A.num_states c

theorem build_row_eq (A : DFA) (P : Nat → Int) (t : Nat → Nat → Int) (p : Nat) :
    build_row A P t p = fun x y =>
      if x = p ∧ y < A.num_alphabet_symbols then
        P (A.transitions (find_representative A P p).toNat y).toNat
      else t x y := by
  unfold build_row
  generalize A.num_alphabet_symbols = m
  induction m with
  | zero => simp
  | succ m ih =>
    rw [List.range_succ, List.foldl_append, ih]
    funext x y
    simp only [List.foldl_cons, List.foldl_nil, store2]
    by_cases hx : x = p
    · by_cases h1 : y = m
      · subst h1; simp [hx]
      · by_cases h2 : y < m
        · have : y < m + 1 := by omega
          simp [hx, h1, h2, this]
        · have : ¬ y < m + 1 := by omega
          simp [hx, h1, h2, this]
    · simp [hx]

theorem build_transitions_eq (A : DFA) (P : Nat → Int) (ncp : Nat) (t0 : Nat → Nat → Int) :
    build_transitions A P ncp t0 = fun x y =>
      if x < ncp ∧ y < A.num_alphabet_symbols then
        P (A.transitions (find_representative A P x).toNat y).toNat
      else t0 x y := by
  unfold build_transitions
  induction ncp with
  | zero => simp
  | succ m ih =>
    rw [List.range_succ, List.foldl_append, ih]
    simp only [List.foldl_cons, List.foldl_nil]
    rw [build_row_eq]
    funext x y
    by_cases hx : x = m
    · subst hx
      by_cases hy : y < A.num_alphabet_symbols <;> simp [hy]
    · by_cases h2 : x < m
      · have : x < m + 1 := by omega
        simp [hx, h2, this]
      · have : ¬ x < m + 1 := by omega
        simp [hx, h2, this]

theorem find_representative_from_spec (P : Nat → Int) (p : Nat) (m i : Nat) :
    (find_representative_from P p i m = -1 ∧
      ∀ j, i ≤ j → j < i + m → P j ≠ (p : Int)) ∨
    (∃ r : Nat, find_representative_from P p i m = (r : Int) ∧ i ≤ r ∧ r < i + m ∧
      P r = (p : Int) ∧ ∀ j, i ≤ j → j < r → P j ≠ (p : Int)) := by
  induction m generalizing i with
  | zero =>
    left
    refine ⟨rfl, ?_⟩
    intro j h1 h2
    omega
  | succ m ih =>
    unfold find_representative_from
    by_cases h : P i = (p : Int)
    · right
      refine ⟨i, by simp [h], le_refl _, by omega, h, ?_⟩
      intro j h1 h2
      omega
    · simp only [h, if_false]
      rcases ih (i + 1) with ⟨h1, h2⟩ | ⟨r, h1, h2, h3, h4, h5⟩
      · left
        refine ⟨h1, ?_⟩
        intro j hj1 hj2
        by_cases hji : j = i
        · subst hji; exact h
        · exact h2 j (by omega) (by omega)
      · right
        refine ⟨r, h1, by omega, by omega, h4, ?_⟩
        intro j hj1 hj2
        by_cases hji : j = i
        · subst hji; exact h
        · exact h5 j (by omega) hj2

theorem distinguishable_false_iff (A : DFA) (P : Nat → Int) (s t : Nat) :
    distinguishable A P s t = false ↔ SameSig A P s t := by
  unfold distinguishable SameSig
  rw [Bool.eq_false_iff]
  simp only [ne_eq, List.any_eq_true, List.mem_range, decide_eq_true_eq, not_exists, not_and,
    not_not]

theorem SameSig.refl (A : DFA) (P : Nat → Int) (s : Nat) : SameSig A P s s :=
  fun _ _ => rfl

theorem SameSig.symm {A : DFA} {P : Nat → Int} {s t : Nat} (h : SameSig A P s t) :
    SameSig A P t s :=
  fun k hk => (h k hk).symm

theorem SameSig.trans {A : DFA} {P : Nat → Int} {s t u : Nat} (h1 : SameSig A P s t)
    (h2 : SameSig A P t u) : SameSig A P s u :=
  fun k hk => (h1 k hk).trans (h2 k hk)

theorem init_step_inv (A : DFA) (m : Nat) (v : InitVars) (h : InitInv A m v) :
    InitInv A (m + 1) (init_step A v m) := by
  obtain ⟨hids, hcase⟩ := h
  by_cases hf : A.is_final m = true
  · rcases hcase with ⟨h0, h1, h2, h3⟩ | ⟨h0, h1, h2, h3, h4⟩ | ⟨h0, h1, h2, h3, h4⟩ |
      ⟨h1, h2, h3, h4, i0, h5, h6⟩ | ⟨h1, h2, h3, h4, i0, h5, h6⟩
    · subst h0
      refine ⟨?_, ?_⟩
      · intro i hi
        have : i = 0 := by omega
        subst this
        simp [init_step, hf, h1, store_same]
      · right; left
        simp [init_step, hf, h1, h2, h3]
    · refine ⟨?_, ?_⟩
      · intro i hi
        by_cases him : i = m
        · subst him; simp [init_step, hf, h1, store_same]
        · have := hids i (by omega)
          simp [init_step, hf, h1, store_other _ _ _ _ him, this, h2]
      · right; left
        simp [init_step, hf, h1, h2, h3]
        intro i hi
        by_cases him : i = m
        · subst him; exact hf
        · exact h4 i (by omega)
    · refine ⟨?_, ?_⟩
      · intro i hi
        by_cases him : i = m
        · subst him; simp [init_step, hf, h1, store_same, h3]
        · have := hids i (by omega)
          have hfi := h4 i (by omega)
          simp [init_step, hf, h1, store_other _ _ _ _ him, this, h2, hfi]
      · right; right; right; right
        simp [init_step, hf, h1, h2, h3]
        exact ⟨h4 0 h0, m, by omega, hf⟩
    · refine ⟨?_, ?_⟩
      · intro i hi
        by_cases him : i = m
        · subst him; simp [init_step, hf, h1, store_same]
        · have := hids i (by omega)
          simp [init_step, hf, h1, store_other _ _ _ _ him, this, h2]
      · right; right; right; left
        simp [init_step, hf, h1, h2, h3, h4]
        exact ⟨i0, by omega, h6⟩
    · refine ⟨?_, ?_⟩
      · intro i hi
        by_cases him : i = m
        · subst him; simp [init_step, hf, h1, store_same]
        · have := hids i (by omega)
          simp [init_step, hf, h1, store_other _ _ _ _ him, this, h2]
      · right; right; right; right
        simp [init_step, hf, h1, h2, h3, h4]
        exact ⟨i0, by omega, h6⟩
  · have hf' : A.is_final m = false := by simpa using hf
    rcases hcase with ⟨h0, h1, h2, h3⟩ | ⟨h0, h1, h2, h3, h4⟩ | ⟨h0, h1, h2, h3, h4⟩ |
      ⟨h1, h2, h3, h4, i0, h5, h6⟩ | ⟨h1, h2, h3, h4, i0, h5, h6⟩
    · subst h0
      refine ⟨?_, ?_⟩
      · intro i hi
        have : i = 0 := by omega
        subst this
        simp [init_step, hf', h2, store_same]
      · right; right; left
        simp [init_step, hf', h1, h2, h3]
    · refine ⟨?_, ?_⟩
      · intro i hi
        by_cases him : i = m
        · subst him; simp [init_step, hf', h2, store_same, h3]
        · have := hids i (by omega)
          have hfi := h4 i (by omega)
          simp [init_step, hf', h2, store_other _ _ _ _ him, this, h1, hfi]
      · right; right; right; left
        simp [init_step, hf', h1, h2, h3]
        exact ⟨h4 0 h0, m, by omega, hf'⟩
    · refine ⟨?_, ?_⟩
      · intro i hi
        by_cases him : i = m
        · subst him; simp [init_step, hf', h2, store_same]
        · have := hids i (by omega)
          simp [init_step, hf', h2, store_other _ _ _ _ him, this, h1]
      · right; right; left
        simp [init_step, hf', h1, h2, h3]
        intro i hi
        by_cases him : i = m
        · subst him; exact hf'
        · exact h4 i (by omega)
    · refine ⟨?_, ?_⟩
      · intro i hi
        by_cases him : i = m
        · subst him; simp [init_step, hf', h2, store_same]
        · have := hids i (by omega)
          simp [init_step, hf', h2, store_other _ _ _ _ him, this, h1]
      · right; right; right; left
        simp [init_step, hf', h1, h2, h3, h4]
        exact ⟨i0, by omega, h6⟩
    · refine ⟨?_, ?_⟩
      · intro i hi
        by_cases him : i = m
        · subst him; simp [init_step, hf', h2, store_same]
        · have := hids i (by omega)
          simp [init_step, hf', h2, store_other _ _ _ _ him, this, h1]
      · right; right; right; right
        simp [init_step, hf', h1, h2, h3, h4]
        exact ⟨i0, by omega, h6⟩

theorem init_fold_inv (A : DFA) (g : Nat → Int) (m : Nat) :
    InitInv A m ((List.range m).foldl (init_step A)
      { state_partition_id := g, num_current_partitions := 0,
        final_partition_id := -1, non_final_partition_id := -1 }) := by
  induction m with
  | zero =>
    refine ⟨?_, ?_⟩
    · intro i hi; omega
    · left; simp
  | succ m ih =>
    rw [List.range_succ, List.foldl_append]
    simp only [List.foldl_cons, List.foldl_nil]
    exact init_step_inv A m _ ih

theorem init_loop_inv (A : DFA) (g : Nat → Int) : InitInv A A.num_states (init_loop A g) :=
  init_fold_inv A g A.num_states

theorem initial_ids_eq_iff (ids0 : Nat → Int) (A : DFA) (i j : Nat) (hi : i < A.num_states)
    (hj : j < A.num_states) :
    initial_ids ids0 A i = initial_ids ids0 A j ↔ A.is_final i = A.is_final j := by
  obtain ⟨hids, hcase⟩ := init_loop_inv A ids0
  unfold initial_ids
  rw [hids i hi, hids j hj]
  rcases hcase with ⟨h0, _⟩ | ⟨_, h1, h2, _, h4⟩ | ⟨_, h1, h2, _, h4⟩ |
      ⟨h1, h2, _, _, _⟩ | ⟨h1, h2, _, _, _⟩
  · omega
  · simp [h4 i hi, h4 j hj]
  · simp [h4 i hi, h4 j hj]
  · rw [h1, h2]
    cases A.is_final i <;> cases A.is_final j <;> simp
  · rw [h1, h2]
    cases A.is_final i <;> cases A.is_final j <;> simp

theorem initial_PInv (ids0 : Nat → Int) (A : DFA) (hn : 1 ≤ A.num_states) :
    PInv A.num_states (initial_ids ids0 A) (initial_count ids0 A) := by
  obtain ⟨hids, hcase⟩ := init_loop_inv A ids0
  unfold initial_ids initial_count
  rcases hcase with ⟨h0, _⟩ | ⟨_, h1, h2, h3, h4⟩ | ⟨_, h1, h2, h3, h4⟩ |
      ⟨h1, h2, h3, h4, i0, h5, h6⟩ | ⟨h1, h2, h3, h4, i0, h5, h6⟩
  · omega
  · refine ⟨?_, ?_⟩
    · intro i hi
      rw [hids i hi, h3, h4 i hi, h1]; simp
    · intro c hc
      rw [h3] at hc
      have : c = 0 := by omega
      subst this
      exact ⟨0, by omega, by rw [hids 0 (by omega), h4 0 (by omega), h1]; simp⟩
  · refine ⟨?_, ?_⟩
    · intro i hi
      rw [hids i hi, h3, h4 i hi, h2]; simp
    · intro c hc
      rw [h3] at hc
      have : c = 0 := by omega
      subst this
      exact ⟨0, by omega, by rw [hids 0 (by omega), h4 0 (by omega), h2]; simp⟩
  · refine ⟨?_, ?_⟩
    · intro i hi
      rw [hids i hi, h3, h1, h2]
      cases A.is_final i <;> simp
    · intro c hc
      rw [h3] at hc
      have : c = 0 ∨ c = 1 := by omega
      rcases this with rfl | rfl
      · exact ⟨0, by omega, by rw [hids 0 (by omega), h4, h1]; simp⟩
      · exact ⟨i0, h5, by rw [hids i0 h5, h6, h2]; simp⟩
  · refine ⟨?_, ?_⟩
    · intro i hi
      rw [hids i hi, h3, h1, h2]
      cases A.is_final i <;> simp
    · intro c hc
      rw [h3] at hc
      have : c = 0 ∨ c = 1 := by omega
      rcases this with rfl | rfl
      · exact ⟨0, by omega, by rw [hids 0 (by omega), h4, h2]; simp⟩
      · exact ⟨i0, h5, by rw [hids i0 h5, h6, h1]; simp⟩

/-! ## One refinement round -/

theorem scan_fold_eq (A : DFA) (P : Nat → Int) (s1 : Nat) (gid : Int) (hg : gid ≠ -1)
    (rest : List Nat) (nw : Nat → Int) (s : Nat) :
    rest.foldl (scan_step A P s1 gid) nw s =
      if s ∈ rest ∧ nw s = -1 ∧ distinguishable A P s1 s = false then gid else nw s := by
  induction rest generalizing nw with
  | nil => simp
  | cons s2 rest ih =>
    rw [List.foldl_cons, ih]
    unfold scan_step
    by_cases h1 : nw s2 = -1
    · by_cases h2 : distinguishable A P s1 s2 = true
      · simp only [h1, ne_eq, not_true_eq_false, if_false, h2, if_true, List.mem_cons]
        by_cases hs : s = s2
        · subst hs
          simp [h2]
        · simp [hs]
      · have h2' : distinguishable A P s1 s2 = false := by simpa using h2
        simp only [h1, ne_eq, not_true_eq_false, if_false, h2', List.mem_cons]
        by_cases hs : s = s2
        · subst hs
          simp [store_same, hg, h1, h2']
        · simp [store_other _ _ _ _ hs, hs]
    · simp only [ne_eq, h1, not_false_eq_true, if_true, List.mem_cons]
      by_cases hs : s = s2
      · subst hs
        simp [h1]
      · simp [hs]

theorem group_step_inv (A : DFA) (P : Nat → Int) (L : List Nat) (base : Nat)
    (done rest : List Nat) (s1 : Nat) (st : (Nat → Int) × Nat)
    (hL : L = done ++ s1 :: rest) (hdone : ∀ s, s ∈ done → st.1 s ≠ -1)
    (hs1 : st.1 s1 = -1) (h : GroupInv A P L base st) :
    GroupInv A P L base
      ((rest.foldl (scan_step A P s1 (st.2 : Int)) (store st.1 s1 (st.2 : Int))), st.2 + 1) ∧
    (∀ s, s ∈ done ++ [s1] →
      (rest.foldl (scan_step A P s1 (st.2 : Int)) (store st.1 s1 (st.2 : Int))) s ≠ -1) ∧
    (∀ s, s ∉ L →
      (rest.foldl (scan_step A P s1 (st.2 : Int)) (store st.1 s1 (st.2 : Int))) s = st.1 s) := by
  obtain ⟨J1, J2, J3, J4⟩ := h
  have hg : ((st.2 : Nat) : Int) ≠ -1 := by omega
  have hs1L : s1 ∈ L := by rw [hL]; simp
  -- closed form of the new array
  have hnew : ∀ s, (rest.foldl (scan_step A P s1 (st.2 : Int)) (store st.1 s1 (st.2 : Int))) s =
      if s = s1 ∨ (s ∈ rest ∧ st.1 s = -1 ∧ SameSig A P s1 s) then (st.2 : Int)
      else st.1 s := by
    intro s
    rw [scan_fold_eq A P s1 _ hg]
    by_cases hs : s = s1
    · subst hs
      simp [store_same, hg]
    · simp only [store_other _ _ _ _ hs, hs, false_or, distinguishable_false_iff]
  -- fresh states are exactly the unassigned members with the signature of s1
  have hfresh : ∀ s, s ∈ L →
      ((s = s1 ∨ (s ∈ rest ∧ st.1 s = -1 ∧ SameSig A P s1 s)) ↔
        (st.1 s = -1 ∧ SameSig A P s1 s)) := by
    intro s hs
    constructor
    · rintro (rfl | ⟨_, h1, h2⟩)
      · exact ⟨hs1, SameSig.refl A P s⟩
      · exact ⟨h1, h2⟩
    · rintro ⟨h1, h2⟩
      rw [hL] at hs
      rcases List.mem_append.1 hs with hd | hr
      · exact absurd h1 (hdone s hd)
      · rcases List.mem_cons.1 hr with rfl | hr
        · left; rfl
        · right; exact ⟨hr, h1, h2⟩
  have hnew2 : ∀ s, s ∈ L →
      (rest.foldl (scan_step A P s1 (st.2 : Int)) (store st.1 s1 (st.2 : Int))) s =
      if st.1 s = -1 ∧ SameSig A P s1 s then (st.2 : Int) else st.1 s := by
    intro s hs
    rw [hnew s]
    by_cases hc : st.1 s = -1 ∧ SameSig A P s1 s
    · rw [if_pos ((hfresh s hs).2 hc), if_pos hc]
    · rw [if_neg (fun h => hc ((hfresh s hs).1 h)), if_neg hc]
  refine ⟨⟨?_, ?_, ?_, ?_⟩, ?_, ?_⟩ <;> try dsimp only
  · intro s hs
    rw [hnew2 s hs]
    by_cases hc : st.1 s = -1 ∧ SameSig A P s1 s
    · rw [if_pos hc]
      right
      constructor
      · exact_mod_cast J4
      · push_cast; omega
    · rw [if_neg hc]
      rcases J1 s hs with h1 | ⟨h1, h2⟩
      · left; exact h1
      · right
        refine ⟨h1, ?_⟩
        push_cast; omega
  · intro s hs t ht hne
    rw [hnew2 s hs] at hne ⊢
    rw [hnew2 t ht]
    by_cases hc : st.1 s = -1 ∧ SameSig A P s1 s
    · rw [if_pos hc]
      by_cases hd : st.1 t = -1 ∧ SameSig A P s1 t
      · rw [if_pos hd]
        simp only [true_iff]
        exact hc.2.symm.trans hd.2
      · rw [if_neg hd]
        constructor
        · intro heq
          exfalso
          rcases J1 t ht with h1 | ⟨_, h2⟩
          · rw [h1] at heq; exact hg heq.symm
          · rw [heq] at h2; exact lt_irrefl _ h2
        · intro hst
          exfalso
          have h1t : SameSig A P s1 t := hc.2.trans hst
          by_cases ht1 : st.1 t = -1
          · exact hd ⟨ht1, h1t⟩
          · have := (J2 t ht s1 hs1L ht1).2 h1t.symm
            rw [hs1] at this
            exact ht1 this.symm
    · rw [if_neg hc] at hne ⊢
      by_cases hd : st.1 t = -1 ∧ SameSig A P s1 t
      · rw [if_pos hd]
        constructor
        · intro heq
          exfalso
          rcases J1 s hs with h1 | ⟨_, h2⟩
          · exact hne h1
          · rw [← heq] at h2; exact lt_irrefl _ h2
        · intro hst
          exfalso
          have := (J2 s hs t ht hne).2 hst
          rw [hd.1] at this
          exact hne this.symm
      · rw [if_neg hd]
        exact J2 s hs t ht hne
  · intro c hc1 hc2
    by_cases hcn : c = st.2
    · subst hcn
      exact ⟨s1, hs1L, by rw [hnew2 s1 hs1L, if_pos ⟨hs1, SameSig.refl A P s1⟩]⟩
    · obtain ⟨s, hs, hsc⟩ := J3 c hc1 (by omega)
      refine ⟨s, hs, ?_⟩
      rw [hnew2 s hs, if_neg]
      · exact hsc
      · rintro ⟨h1, _⟩
        rw [h1] at hsc
        omega
  · omega
  · intro s hs
    rcases List.mem_append.1 hs with hd | hr
    · have hsL : s ∈ L := by rw [hL]; exact List.mem_append_left _ hd
      rw [hnew2 s hsL, if_neg (fun h => hdone s hd h.1)]
      exact hdone s hd
    · have : s = s1 := by simpa using hr
      subst this
      rw [hnew2 s hs1L, if_pos ⟨hs1, SameSig.refl A P s⟩]
      exact hg
  · intro s hs
    rw [hnew s, if_neg]
    rintro (rfl | ⟨hr, _⟩)
    · exact hs hs1L
    · apply hs; rw [hL]; simp [hr]

theorem refine_group_spec (A : DFA) (P : Nat → Int) (L : List Nat) (base : Nat)
    (rest : List Nat) :
    ∀ (done : List Nat) (st : (Nat → Int) × Nat),
      L = done ++ rest → (∀ s, s ∈ done → st.1 s ≠ -1) → GroupInv A P L base st →
      GroupInv A P L base (refine_group A P rest st) ∧
      (∀ s, s ∈ L → (refine_group A P rest st).1 s ≠ -1) ∧
      (∀ s, s ∉ L → (refine_group A P rest st).1 s = st.1 s) ∧
      st.2 ≤ (refine_group A P rest st).2 := by
  induction rest with
  | nil =>
    intro done st hL hdone h
    simp only [List.append_nil] at hL
    subst hL
    exact ⟨h, hdone, fun _ _ => rfl, le_refl _⟩
  | cons s1 rest ih =>
    intro done st hL hdone h
    have hL2 : L = (done ++ [s1]) ++ rest := by simp [hL]
    unfold refine_group
    by_cases hs1 : st.1 s1 = -1
    · rw [if_neg (by simp [hs1])]
      obtain ⟨g1, g2, g3⟩ := group_step_inv A P L base done rest s1 st hL hdone hs1 h
      obtain ⟨r1, r2, r3, r4⟩ := ih (done ++ [s1]) _ hL2 g2 g1
      refine ⟨r1, r2, ?_, ?_⟩
      · intro s hs
        rw [r3 s hs]
        exact g3 s hs
      · dsimp only at r4
        omega
    · rw [if_pos hs1]
      refine ih (done ++ [s1]) st hL2 ?_ h
      intro s hs
      rcases List.mem_append.1 hs with hd | hr
      · exact hdone s hd
      · have : s = s1 := by simpa using hr
        subst this
        exact hs1

theorem mem_members (A : DFA) (P : Nat → Int) (p s : Nat) :
    s ∈ members A P p ↔ s < A.num_states ∧ P s = (p : Int) := by
  simp [members]

theorem refine_class_inv (A : DFA) (P : Nat → Int) (k p : Nat)
    (hP : PInv A.num_states P k) (hp : p < k) (st : (Nat → Int) × Nat)
    (h : RoundInv A P p st) : RoundInv A P (p + 1) (refine_class A P st p) := by
  obtain ⟨Ra, Rb, Rc, Rd, Re, Rf⟩ := h
  have hmem := mem_members A P p
  have hinit : GroupInv A P (members A P p) st.2 st := by
    refine ⟨?_, ?_, ?_, le_refl _⟩
    · intro s hs
      left
      exact Rb s (by rw [((hmem s).1 hs).2])
    · intro s hs t _ hne
      exact absurd (Rb s (by rw [((hmem s).1 hs).2])) hne
    · intro c h1 h2
      omega
  obtain ⟨⟨J1, J2, J3, J4⟩, hall, hframe, hmono⟩ :=
    refine_group_spec A P (members A P p) st.2 (members A P p) [] st (by simp)
      (by intro s hs; simp at hs) hinit
  unfold refine_class
  -- facts about members of class p
  have hin : ∀ i, i < A.num_states → P i = (p : Int) →
      (st.2 : Int) ≤ (refine_group A P (members A P p) st).1 i ∧
      (refine_group A P (members A P p) st).1 i <
        ((refine_group A P (members A P p) st).2 : Int) := by
    intro i hi hpi
    have hm : i ∈ members A P p := (hmem i).2 ⟨hi, hpi⟩
    rcases J1 i hm with h1 | h1
    · exact absurd h1 (hall i hm)
    · exact h1
  have hout : ∀ i, P i ≠ (p : Int) →
      (refine_group A P (members A P p) st).1 i = st.1 i := by
    intro i hpi
    apply hframe
    intro hm
    exact hpi ((hmem i).1 hm).2
  obtain ⟨i0, hi0, hpi0⟩ := hP.2 p hp
  have hgrow : st.2 + 1 ≤ (refine_group A P (members A P p) st).2 := by
    have := hin i0 hi0 hpi0
    omega
  refine ⟨?_, ?_, ?_, ?_, ?_, ?_⟩
  · intro i hi hlt
    by_cases hpi : P i = (p : Int)
    · have := hin i hi hpi
      omega
    · rw [hout i hpi]
      have := Ra i hi (by push_cast at hlt; omega)
      omega
  · intro i hle
    rw [hout i (by push_cast at hle; omega)]
    exact Rb i (by push_cast at hle; omega)
  · intro c hc
    by_cases hc2 : c < st.2
    · obtain ⟨i, hi, hlt, hic⟩ := Rc c hc2
      refine ⟨i, hi, by push_cast; omega, ?_⟩
      rw [hout i (by omega)]
      exact hic
    · obtain ⟨s, hs, hsc⟩ := J3 c (by omega) hc
      have := (hmem s).1 hs
      exact ⟨s, this.1, by push_cast; omega, hsc⟩
  · intro i hi j hj hlti hltj
    by_cases hpi : P i = (p : Int)
    · by_cases hpj : P j = (p : Int)
      · have hmi : i ∈ members A P p := (hmem i).2 ⟨hi, hpi⟩
        have hmj : j ∈ members A P p := (hmem j).2 ⟨hj, hpj⟩
        have := J2 j hmj i hmi (hall j hmj)
        rw [this]
        constructor
        · intro h; exact ⟨by rw [hpi, hpj], h.symm⟩
        · intro h; exact h.2.symm
      · have h1 := hin i hi hpi
        rw [hout j hpj]
        have h2 := Ra j hj (by push_cast at hltj; omega)
        constructor
        · intro h; omega
        · intro h; exfalso; apply hpj; rw [← h.1]; exact hpi
    · by_cases hpj : P j = (p : Int)
      · have h1 := hin j hj hpj
        rw [hout i hpi]
        have h2 := Ra i hi (by push_cast at hlti; omega)
        constructor
        · intro h; omega
        · intro h; exfalso; apply hpi; rw [h.1]; exact hpj
      · rw [hout i hpi, hout j hpj]
        exact Rd i hi j hj (by push_cast at hlti; omega) (by push_cast at hltj; omega)
  · omega
  · intro i hi hlt
    by_cases hpi : P i = (p : Int)
    · have := hin i hi hpi
      push_cast
      omega
    · rw [hout i hpi]
      have := Rf i hi (by push_cast at hlt; omega)
      push_cast
      omega

theorem refine_fold_inv (A : DFA) (P : Nat → Int) (k : Nat)
    (hP : PInv A.num_states P k) (p : Nat) (hp : p ≤ k) :
    RoundInv A P p ((List.range p).foldl (refine_class A P) (fun _ => -1, 0)) := by
  induction p with
  | zero =>
    refine ⟨?_, ?_, ?_, ?_, ?_, ?_⟩
    · intro i hi hlt
      have := (hP.1 i hi).1
      simp at hlt
      omega
    · intro i _
      simp
    · intro c hc
      simp at hc
    · intro i hi j _ hlt
      have := (hP.1 i hi).1
      simp at hlt
      omega
    · simp
    · intro i hi hlt
      have := (hP.1 i hi).1
      simp at hlt
      omega
  | succ p ih =>
    rw [List.range_succ, List.foldl_append]
    simp only [List.foldl_cons, List.foldl_nil]
    exact refine_class_inv A P k p hP (by omega) _ (ih (by omega))

/-- A partition with `k` used ids on `n` states has at most `n` classes. -/
theorem PInv.count_le {n : Nat} {P : Nat → Int} {k : Nat} (h : PInv n P k) : k ≤ n := by
  classical
  by_contra hlt
  push_neg at hlt
  -- choose a member for each class
  have hex : ∀ c : Fin k, ∃ i : Fin n, P i = ((c : Nat) : Int) := by
    intro c
    obtain ⟨i, hi, hpi⟩ := h.2 c c.2
    exact ⟨⟨i, hi⟩, hpi⟩
  choose f hf using hex
  have hinj : Function.Injective f := by
    intro a b hab
    have h1 := hf a
    have h2 := hf b
    rw [hab] at h1
    rw [h1] at h2
    apply Fin.ext
    exact_mod_cast h2
  have := Fintype.card_le_of_injective f hinj
  simp at this
  omega

/-- The effect of one refinement round on a partition that satisfies the
partition invariant. -/
theorem refine_round_spec (A : DFA) (P : Nat → Int) (k : Nat)
    (hP : PInv A.num_states P k) :
    PInv A.num_states (refine_round A P k).1 (refine_round A P k).2 ∧
    (∀ i, i < A.num_states → ∀ j, j < A.num_states →
      ((refine_round A P k).1 i = (refine_round A P k).1 j ↔
        (P i = P j ∧ SameSig A P i j))) ∧
    k ≤ (refine_round A P k).2 ∧
    ((refine_round A P k).2 = k →
      ∀ i, i < A.num_states → (refine_round A P k).1 i = P i) := by
  obtain ⟨Ra, Rb, Rc, Rd, Re, Rf⟩ := refine_fold_inv A P k hP k (le_refl _)
  unfold refine_round
  refine ⟨⟨?_, ?_⟩, ?_, Re, ?_⟩
  · intro i hi
    exact Ra i hi (hP.1 i hi).2
  · intro c hc
    obtain ⟨i, hi, _, hic⟩ := Rc c hc
    exact ⟨i, hi, hic⟩
  · intro i hi j hj
    exact Rd i hi j hj (hP.1 i hi).2 (hP.1 j hj).2
  · intro heq i hi
    have := Rf i hi (hP.1 i hi).2
    rw [heq] at this
    omega

/-! ## The refinement loop -/

theorem changed_flag_false_iff (A : DFA) (P : Nat → Int) (k : Nat) (r : (Nat → Int) × Nat) :
    changed_flag A P k r = false ↔
      (r.2 = k ∧ ∀ i, i < A.num_states → P i = r.1 i) := by
  unfold changed_flag
  by_cases h : r.2 = k
  · simp [h]
  · simp [h]

theorem changed_flag_round (A : DFA) (P : Nat → Int) (k : Nat)
    (hP : PInv A.num_states P k) :
    changed_flag A P k (refine_round A P k) = false ↔ (refine_round A P k).2 = k := by
  rw [changed_flag_false_iff]
  constructor
  · intro h; exact h.1
  · intro h
    refine ⟨h, ?_⟩
    intro i hi
    exact ((refine_round_spec A P k hP).2.2.2 h i hi).symm

theorem target_lt (A : DFA) (hv : Valid A) (s k : Nat) (hs : s < A.num_states)
    (hk : k < A.num_alphabet_symbols) : (A.transitions s k).toNat < A.num_states := by
  have := hv.2.2.2 s hs k hk
  omega

theorem start_lt (A : DFA) (hv : Valid A) : A.start_state.toNat < A.num_states := by
  have := hv.2.2.1
  omega

theorem run_lt (A : DFA) (hv : Valid A) (w : List Nat) :
    ∀ s, s < A.num_states → IsWord A w → run A s w < A.num_states := by
  induction w with
  | nil => intro s hs _; exact hs
  | cons k w ih =>
    intro s hs hw
    unfold run
    apply ih
    · exact target_lt A hv s k hs (hw k (by simp))
    · intro x hx
      exact hw x (by simp [hx])

theorem loop_entry_inv (ids0 : Nat → Int) (A : DFA) (hv : Valid A) :
    LoopInv A (loop_entry ids0 A) := by
  refine ⟨initial_PInv ids0 A hv.1, ?_, ?_⟩
  · intro i hi j hj h
    exact (initial_ids_eq_iff ids0 A i j hi hj).1 h
  · intro i hi j hj h
    refine ⟨[], by intro k hk; simp at hk, ?_⟩
    intro heq
    apply h
    exact (initial_ids_eq_iff ids0 A i j hi hj).2 heq

theorem round_body_ids (A : DFA) (v : LoopVars) (i : Nat) (hi : i < A.num_states) :
    (round_body A v).state_partition_id i =
      (refine_round A v.state_partition_id v.num_current_partitions).1 i := by
  unfold round_body
  simp only [copy_back_eq, hi, if_true]

theorem round_body_inv (A : DFA) (hv : Valid A) (v : LoopVars) (h : LoopInv A v) :
    LoopInv A (round_body A v) := by
  obtain ⟨hP, hacc, hsep⟩ := h
  obtain ⟨⟨q1, q2⟩, hiff, _, _⟩ :=
    refine_round_spec A v.state_partition_id v.num_current_partitions hP
  refine ⟨⟨?_, ?_⟩, ?_, ?_⟩
  · intro i hi
    rw [round_body_ids A v i hi]
    exact q1 i hi
  · intro c hc
    obtain ⟨i, hi, hic⟩ := q2 c hc
    exact ⟨i, hi, by rw [round_body_ids A v i hi]; exact hic⟩
  · intro i hi j hj heq
    rw [round_body_ids A v i hi, round_body_ids A v j hj] at heq
    exact hacc i hi j hj ((hiff i hi j hj).1 heq).1
  · intro i hi j hj hne
    rw [round_body_ids A v i hi, round_body_ids A v j hj] at hne
    by_cases hij : v.state_partition_id i = v.state_partition_id j
    · have hns : ¬ SameSig A v.state_partition_id i j := by
        intro hs
        exact hne ((hiff i hi j hj).2 ⟨hij, hs⟩)
      unfold SameSig at hns
      push_neg at hns
      obtain ⟨k, hk, hkne⟩ := hns
      obtain ⟨w, hw, hwne⟩ :=
        hsep _ (target_lt A hv i k hi hk) _ (target_lt A hv j k hj hk) hkne
      refine ⟨k :: w, ?_, ?_⟩
      · intro x hx
        rcases List.mem_cons.1 hx with rfl | hx
        · exact hk
        · exact hw x hx
      · exact hwne
    · exact hsep i hi j hj hij

theorem round_body_count (A : DFA) (v : LoopVars) :
    (round_body A v).num_current_partitions =
      (refine_round A v.state_partition_id v.num_current_partitions).2 := rfl

theorem round_body_iteration (A : DFA) (v : LoopVars) :
    (round_body A v).iteration = v.iteration + 1 := rfl

/-- The class count never decreases in a round. -/
theorem round_body_count_le (A : DFA) (v : LoopVars) (h : LoopInv A v) :
    v.num_current_partitions ≤ (round_body A v).num_current_partitions := by
  rw [round_body_count]
  exact (refine_round_spec A v.state_partition_id v.num_current_partitions h.1).2.2.1

theorem after_rounds_inv (ids0 : Nat → Int) (A : DFA) (hv : Valid A) (r : Nat) :
    LoopInv A (after_rounds ids0 A r) := by
  induction r with
  | zero => exact loop_entry_inv ids0 A hv
  | succ r ih => exact round_body_inv A hv _ ih

theorem after_rounds_iteration (ids0 : Nat → Int) (A : DFA) (r : Nat) :
    (after_rounds ids0 A r).iteration = r := by
  induction r with
  | zero => rfl
  | succ r ih =>
    show (round_body A (after_rounds ids0 A r)).iteration = r + 1
    rw [round_body_iteration, ih]

theorem after_rounds_iterate (ids0 : Nat → Int) (A : DFA) (r : Nat) :
    after_rounds ids0 A r = (round_body A)^[r] (loop_entry ids0 A) := by
  induction r with
  | zero => rfl
  | succ r ih =>
    rw [Function.iterate_succ_apply', ← ih]
    rfl

theorem loop_runs (A : DFA) (hv : Valid A) (fuel : Nat) :
    ∀ v, LoopInv A v → A.num_states < fuel + v.num_current_partitions →
      ∃ r, r + v.num_current_partitions ≤ A.num_states ∧
        refine_loop A fuel v = some ((round_body A)^[r + 1] v) ∧
        Stable A ((round_body A)^[r] v) := by
  induction fuel with
  | zero =>
    intro v h hlt
    have := h.1.count_le
    omega
  | succ fuel ih =>
    intro v h hlt
    unfold refine_loop
    by_cases hc : changed_flag A v.state_partition_id v.num_current_partitions
        (refine_round A v.state_partition_id v.num_current_partitions) = true
    · rw [if_pos hc]
      have hle := round_body_count_le A v h
      have hne : (round_body A v).num_current_partitions ≠ v.num_current_partitions := by
        intro heq
        rw [round_body_count] at heq
        have := (changed_flag_round A v.state_partition_id v.num_current_partitions h.1).2 heq
        rw [this] at hc
        exact Bool.false_ne_true hc
      obtain ⟨r, h1, h2, h3⟩ := ih (round_body A v) (round_body_inv A hv v h) (by omega)
      refine ⟨r + 1, by omega, ?_, ?_⟩
      · rw [h2]; rfl
      · exact h3
    · have hc' : changed_flag A v.state_partition_id v.num_current_partitions
          (refine_round A v.state_partition_id v.num_current_partitions) = false := by
        simpa using hc
      rw [if_neg hc]
      have := h.1.count_le
      exact ⟨0, by omega, rfl, hc'⟩

theorem refine_loop_mono (A : DFA) (f : Nat) :
    ∀ (v x : LoopVars) (g : Nat), refine_loop A f v = some x → f ≤ g →
      refine_loop A g v = some x := by
  induction f with
  | zero =>
    intro v x g h _
    simp [refine_loop] at h
  | succ f ih =>
    intro v x g h hg
    obtain ⟨g, rfl⟩ : ∃ g0, g = g0 + 1 := ⟨g - 1, by omega⟩
    unfold refine_loop at h ⊢
    by_cases hc : changed_flag A v.state_partition_id v.num_current_partitions
        (refine_round A v.state_partition_id v.num_current_partitions) = true
    · rw [if_pos hc] at h ⊢
      exact ih _ _ _ h (by omega)
    · rw [if_neg hc] at h ⊢
      exact h

theorem initial_count_pos (ids0 : Nat → Int) (A : DFA) (hv : Valid A) :
    1 ≤ initial_count ids0 A := by
  have := ((initial_PInv ids0 A hv.1).1 0 (by have := hv.1; omega))
  omega

/-- A stable state is reproduced by one more round. -/
theorem stable_round_body (A : DFA) (v : LoopVars) (h : Stable A v) :
    (round_body A v).state_partition_id = v.state_partition_id ∧
    (round_body A v).num_current_partitions = v.num_current_partitions := by
  obtain ⟨h1, h2⟩ := (changed_flag_false_iff _ _ _ _).1 h
  refine ⟨?_, h1⟩
  unfold round_body
  simp only [copy_back_eq]
  funext j
  by_cases hj : j < A.num_states
  · rw [if_pos hj]; exact (h2 j hj).symm
  · rw [if_neg hj]

/-- Classes of a stable partition are closed under the transition function. -/
theorem stable_sameSig (A : DFA) (v : LoopVars) (hP : LoopInv A v) (h : Stable A v)
    (i j : Nat) (hi : i < A.num_states) (hj : j < A.num_states)
    (hij : v.state_partition_id i = v.state_partition_id j) :
    SameSig A v.state_partition_id i j := by
  obtain ⟨_, h2⟩ := (changed_flag_false_iff _ _ _ _).1 h
  have hiff := (refine_round_spec A v.state_partition_id v.num_current_partitions hP.1).2.1
    i hi j hj
  have : (refine_round A v.state_partition_id v.num_current_partitions).1 i =
      (refine_round A v.state_partition_id v.num_current_partitions).1 j := by
    rw [← h2 i hi, ← h2 j hj]; exact hij
  exact (hiff.1 this).2

/-- The loop terminates for every valid automaton, within `num_states`
rounds, in a stable partition. -/
theorem final_partition_total (ids0 : Nat → Int) (A : DFA) (hv : Valid A) :
    ∃ v, (∀ fuel, A.num_states ≤ fuel → final_partition ids0 A fuel = some v) ∧
      FinalSpec A v ∧ 1 ≤ v.iteration ∧ v.iteration ≤ A.num_states ∧
      v = after_rounds ids0 A v.iteration := by
  have hpos := initial_count_pos ids0 A hv
  obtain ⟨r, h1, h2, h3⟩ :=
    loop_runs A hv A.num_states (loop_entry ids0 A) (loop_entry_inv ids0 A hv)
    (by show A.num_states < A.num_states + initial_count ids0 A; omega)
  have h1' : r + initial_count ids0 A ≤ A.num_states := h1
  rw [← after_rounds_iterate ids0] at h2 h3
  have hit : (after_rounds ids0 A (r + 1)).iteration = r + 1 :=
    after_rounds_iteration ids0 A (r + 1)
  have hinv := after_rounds_inv ids0 A hv r
  obtain ⟨e1, e2⟩ := stable_round_body A (after_rounds ids0 A r) h3
  have hstab : Stable A (after_rounds ids0 A (r + 1)) := by
    show Stable A (round_body A (after_rounds ids0 A r))
    unfold Stable
    rw [e1, e2]
    exact h3
  refine ⟨after_rounds ids0 A (r + 1), ?_,
    ⟨after_rounds_inv ids0 A hv (r + 1), hstab, ?_⟩, ?_, ?_, ?_⟩
  · intro fuel hf
    exact refine_loop_mono A _ _ _ fuel h2 hf
  · intro i hi j hj hij
    exact stable_sameSig A _ (after_rounds_inv ids0 A hv (r + 1)) hstab i j hi hj hij
  · rw [hit]; omega
  · rw [hit]; omega
  · rw [hit]

/-! ## Reconstruction -/

theorem find_representative_spec (A : DFA) (P : Nat → Int) (k p : Nat)
    (hP : PInv A.num_states P k) (hp : p < k) :
    ∃ r : Nat, find_representative A P p = (r : Int) ∧ r < A.num_states ∧ P r = (p : Int) ∧
      ∀ j, j < r → P j ≠ (p : Int) := by
  unfold find_representative
  rcases find_representative_from_spec P p A.num_states 0 with
    ⟨_, h2⟩ | ⟨r, h1, _, h3, h4, h5⟩
  · obtain ⟨i, hi, hpi⟩ := hP.2 p hp
    exact absurd hpi (h2 i (by omega) (by omega))
  · exact ⟨r, h1, by omega, h4, fun j hj => h5 j (by omega) hj⟩

theorem class_toNat (A : DFA) (P : Nat → Int) (k : Nat) (hP : PInv A.num_states P k)
    (s : Nat) (hs : s < A.num_states) :
    (P s).toNat < k ∧ (((P s).toNat : Nat) : Int) = P s := by
  have := hP.1 s hs
  omega

theorem reconstruct_transitions (A out : DFA) (v : LoopVars)
    (h : FinalSpec A v) (s j : Nat) (hs : s < A.num_states)
    (hj : j < A.num_alphabet_symbols) :
    (reconstruct A v out).transitions (v.state_partition_id s).toNat j =
      v.state_partition_id (A.transitions s j).toNat := by
  obtain ⟨⟨hP, _, _⟩, _, hsig⟩ := h
  obtain ⟨hc1, hc2⟩ := class_toNat A _ _ hP s hs
  obtain ⟨r, hr1, hr2, hr3, _⟩ := find_representative_spec A _ _ _ hP hc1
  show build_transitions A v.state_partition_id v.num_current_partitions out.transitions
    (v.state_partition_id s).toNat j = _
  rw [build_transitions_eq]
  simp only [hc1, hj, and_self, if_true, hr1, Int.toNat_ofNat]
  exact hsig r hr2 s hs (by rw [hr3, hc2]) j hj

theorem reconstruct_is_final (A out : DFA) (v : LoopVars)
    (h : FinalSpec A v) (s : Nat) (hs : s < A.num_states) :
    (reconstruct A v out).is_final (v.state_partition_id s).toNat = A.is_final s := by
  obtain ⟨⟨hP, hacc, _⟩, _, _⟩ := h
  show build_is_final A v.state_partition_id (v.state_partition_id s).toNat = _
  by_cases hf : A.is_final s = true
  · rw [hf, build_is_final_iff]
    exact ⟨s, hs, hf, rfl⟩
  · have hf' : A.is_final s = false := by simpa using hf
    rw [hf']
    by_contra hne
    have hne' : build_is_final A v.state_partition_id (v.state_partition_id s).toNat = true := by
      simpa using hne
    obtain ⟨i, hi, h1, h2⟩ := (build_is_final_iff _ _ _).1 hne'
    have e1 := (class_toNat A _ _ hP i hi).2
    have e2 := (class_toNat A _ _ hP s hs).2
    have : v.state_partition_id i = v.state_partition_id s := by
      rw [← e1, ← e2, h2]
    have := hacc i hi s hs this
    rw [h1, hf'] at this
    exact Bool.noConfusion this

theorem reconstruct_valid (A out : DFA) (hv : Valid A) (v : LoopVars)
    (h : FinalSpec A v) : Valid (reconstruct A v out) := by
  have hP := h.1.1
  have hs0 := start_lt A hv
  refine ⟨?_, hv.2.1, ?_, ?_⟩
  · show 1 ≤ v.num_current_partitions
    have := hP.1 _ hs0
    omega
  · show 0 ≤ v.state_partition_id A.start_state.toNat ∧
      v.state_partition_id A.start_state.toNat < (v.num_current_partitions : Int)
    exact hP.1 _ hs0
  · intro c hc j hj
    have hc' : c < v.num_current_partitions := hc
    have hj' : j < A.num_alphabet_symbols := hj
    obtain ⟨i, hi, hic⟩ := hP.2 c hc'
    have hct : (v.state_partition_id i).toNat = c := by omega
    have := reconstruct_transitions A out v h i j hi hj'
    rw [hct] at this
    rw [this]
    exact hP.1 _ (target_lt A hv i j hi hj')

theorem reconstruct_run (A out : DFA) (hv : Valid A) (v : LoopVars)
    (h : FinalSpec A v) (w : List Nat) :
    ∀ s, s < A.num_states → IsWord A w →
      run (reconstruct A v out) (v.state_partition_id s).toNat w =
        (v.state_partition_id (run A s w)).toNat := by
  induction w with
  | nil => intro s _ _; rfl
  | cons k w ih =>
    intro s hs hw
    have hk : k < A.num_alphabet_symbols := hw k (by simp)
    have hw' : IsWord A w := fun x hx => hw x (by simp [hx])
    unfold run
    rw [reconstruct_transitions A out v h s k hs hk]
    exact ih _ (target_lt A hv s k hs hk) hw'

theorem reconstruct_accepts_from (A out : DFA) (hv : Valid A) (v : LoopVars)
    (h : FinalSpec A v) (w : List Nat) (s : Nat) (hs : s < A.num_states)
    (hw : IsWord A w) :
    accepts_from (reconstruct A v out) (v.state_partition_id s).toNat w =
      accepts_from A s w := by
  unfold accepts_from
  rw [reconstruct_run A out hv v h w s hs hw]
  exact reconstruct_is_final A out v h _ (run_lt A hv w s hs hw)

theorem reconstruct_accepts (A out : DFA) (hv : Valid A) (v : LoopVars)
    (h : FinalSpec A v) (w : List Nat) (hw : IsWord A w) :
    accepts (reconstruct A v out) w = accepts A w := by
  have hs0 := start_lt A hv
  have := reconstruct_accepts_from A out hv v h w _ hs0 hw
  unfold accepts
  rw [← this]
  rfl

/-- States of one class of a stable partition accept the same words. -/
theorem same_class_equivalent (A : DFA) (hv : Valid A) (v : LoopVars) (h : FinalSpec A v)
    (w : List Nat) :
    ∀ s t, s < A.num_states → t < A.num_states →
      v.state_partition_id s = v.state_partition_id t → IsWord A w →
      accepts_from A s w = accepts_from A t w := by
  induction w with
  | nil =>
    intro s t hs ht hst _
    exact h.1.2.1 s hs t ht hst
  | cons k w ih =>
    intro s t hs ht hst hw
    have hk : k < A.num_alphabet_symbols := hw k (by simp)
    have hw' : IsWord A w := fun x hx => hw x (by simp [hx])
    exact ih _ _ (target_lt A hv s k hs hk) (target_lt A hv t k ht hk)
      (h.2.2 s hs t ht hst k hk) hw'

/-- Existence and the properties of the result of `minimize_dfa`. -/
theorem minimize_dfa_total (ids0 : Nat → Int) (A out : DFA) (hv : Valid A) :
    ∃ v, (∀ fuel, A.num_states ≤ fuel → final_partition ids0 A fuel = some v) ∧
      (∀ fuel, A.num_states ≤ fuel → minimize_dfa fuel ids0 A out = some (reconstruct A v out)) ∧
      FinalSpec A v ∧ 1 ≤ v.iteration ∧ v.iteration ≤ A.num_states ∧
      v = after_rounds ids0 A v.iteration := by
  obtain ⟨v, h1, h2, h3, h4, h5⟩ := final_partition_total ids0 A hv
  refine ⟨v, h1, ?_, h2, h3, h4, h5⟩
  intro fuel hf
  unfold minimize_dfa
  rw [h1 fuel hf]
  rfl

theorem run_append (A : DFA) (w u : List Nat) :
    ∀ s, run A s (w ++ u) = run A (run A s w) u := by
  induction w with
  | nil => intro s; rfl
  | cons k w ih => intro s; exact ih _

theorem IsWord.append {A : DFA} {w u : List Nat} (hw : IsWord A w) (hu : IsWord A u) :
    IsWord A (w ++ u) := by
  intro k hk
  rcases List.mem_append.1 hk with h | h
  · exact hw k h
  · exact hu k h

/-- An injection from `0..k-1` into `0..m-1` forces `k ≤ m`. -/
theorem le_of_injOn_range (k m : Nat) (f : Nat → Nat) (hf : ∀ c, c < k → f c < m)
    (hinj : ∀ c, c < k → ∀ d, d < k → f c = f d → c = d) : k ≤ m := by
  have hinj' : Function.Injective (fun c : Fin k => (⟨f c, hf c c.2⟩ : Fin m)) := by
    intro a b hab
    apply Fin.ext
    exact hinj a a.2 b b.2 (by simpa using hab)
  have := Fintype.card_le_of_injective _ hinj'
  simpa using this

/-- The minimised automaton has pairwise inequivalent states. -/
theorem reconstruct_reduced (A out : DFA) (hv : Valid A) (v : LoopVars)
    (h : FinalSpec A v) (c d : Nat) (hc : c < v.num_current_partitions)
    (hd : d < v.num_current_partitions) (hcd : c ≠ d) :
    ∃ w, IsWord A w ∧
      accepts_from (reconstruct A v out) c w ≠ accepts_from (reconstruct A v out) d w := by
  have hP := h.1.1
  obtain ⟨i, hi, hic⟩ := hP.2 c hc
  obtain ⟨j, hj, hjd⟩ := hP.2 d hd
  have hne : v.state_partition_id i ≠ v.state_partition_id j := by
    rw [hic, hjd]
    intro heq
    apply hcd
    exact_mod_cast heq
  obtain ⟨w, hw, hsep⟩ := h.1.2.2 i hi j hj hne
  refine ⟨w, hw, ?_⟩
  have e1 := reconstruct_accepts_from A out hv v h w i hi hw
  have e2 := reconstruct_accepts_from A out hv v h w j hj hw
  have t1 : (v.state_partition_id i).toNat = c := by omega
  have t2 : (v.state_partition_id j).toNat = d := by omega
  rw [t1] at e1
  rw [t2] at e2
  rw [e1, e2]
  exact hsep

/-- Minimising a minimised automaton keeps the number of states. -/
theorem reminimize_count (A out : DFA) (hv : Valid A) (v : LoopVars) (h : FinalSpec A v)
    (v2 : LoopVars) (h2 : FinalSpec (reconstruct A v out) v2) :
    v2.num_current_partitions = v.num_current_partitions := by
  have hvM := reconstruct_valid A out hv v h
  have hP2 := h2.1.1
  have hle : v2.num_current_partitions ≤ v.num_current_partitions := hP2.count_le
  have hge : v.num_current_partitions ≤ v2.num_current_partitions := by
    apply le_of_injOn_range _ _ (fun c => (v2.state_partition_id c).toNat)
    · intro c hc
      exact (class_toNat _ _ _ hP2 c hc).1
    · intro c hc d hd heq
      by_contra hcd
      obtain ⟨w, hw, hsep⟩ := reconstruct_reduced A out hv v h c d hc hd hcd
      apply hsep
      have e1 := (class_toNat _ _ _ hP2 c hc).2
      have e2 := (class_toNat _ _ _ hP2 d hd).2
      have heq1 : (v2.state_partition_id c).toNat = (v2.state_partition_id d).toNat := heq
      have heq' : v2.state_partition_id c = v2.state_partition_id d := by
        rw [← e1, ← e2, heq1]
      exact same_class_equivalent _ hvM v2 h2 w c d hc hd heq' hw
  omega

/-! ## Facts about the example automata -/

theorem exFour_reachable : AllReachable exFour := by
  intro s hs
  have hs' : s < 4 := hs
  interval_cases s
  · exact ⟨[], by decide, by decide⟩
  · exact ⟨[0], by decide, by decide⟩
  · exact ⟨[1], by decide, by decide⟩
  · exact ⟨[0, 0], by decide, by decide⟩

theorem exUnreachable_run (w : List Nat) : run exUnreachable 0 w = 0 := by
  induction w with
  | nil => rfl
  | cons k w ih => exact ih

theorem exOne_run (w : List Nat) : run exOne 0 w = 0 := by
  induction w with
  | nil => rfl
  | cons k w ih => exact ih

theorem exUnreachable_language : SameLanguage exUnreachable exOne := by
  intro w _
  show exUnreachable.is_final (run exUnreachable 0 w) = exOne.is_final (run exOne 0 w)
  rw [exUnreachable_run, exOne_run]
  rfl

/-! ## Properties of `minimize_dfa` -/

/-- C1. Language preservation: for every valid automaton `A`, `minimize_dfa`
returns an automaton `M`, and for every word `w` of alphabet indices, of any
length, `A` accepts `w` from its start state iff `M` accepts `w` from its
start state. No reachability assumption is made. -/
theorem C1_language_preservation (ids0 : Nat → Int) (A out : DFA) (hv : Valid A) :
    ∃ M, (∀ fuel, A.num_states ≤ fuel → minimize_dfa fuel ids0 A out = some M) ∧
      ∀ w, IsWord A w → (accepts A w = true ↔ accepts M w = true) := by
  obtain ⟨v, _, h2, h3, _⟩ := minimize_dfa_total ids0 A out hv
  refine ⟨_, h2, ?_⟩
  intro w hw
  rw [reconstruct_accepts A out hv v h3 w hw]

theorem C1_language_preservation_witness :
    Valid exFour ∧
    ∃ M, (∀ fuel, exFour.num_states ≤ fuel → minimize_dfa fuel zero_ids exFour blank = some M) ∧
      ∀ w, IsWord exFour w → (accepts exFour w = true ↔ accepts M w = true) :=
  ⟨by decide, C1_language_preservation zero_ids exFour blank (by decide)⟩

/-- The number of distinct ids carried by the states equals the class count. -/
theorem PInv.card_image {n : Nat} {P : Nat → Int} {k : Nat} (h : PInv n P k) :
    ((Finset.range n).image P).card = k := by
  have himg : (Finset.range n).image P = (Finset.range k).image (fun c : Nat => (c : Int)) := by
    ext x
    simp only [Finset.mem_image, Finset.mem_range]
    constructor
    · rintro ⟨i, hi, rfl⟩
      have := h.1 i hi
      exact ⟨(P i).toNat, by omega, by omega⟩
    · rintro ⟨c, hc, rfl⟩
      obtain ⟨i, hi, hic⟩ := h.2 c hc
      exact ⟨i, hi, hic⟩
  rw [himg, Finset.card_image_of_injective _ Nat.cast_injective, Finset.card_range]

/-- With every state reachable, an automaton for the same language has at
least as many states as there are classes in the stable partition. -/
theorem classes_le_of_reachable (A : DFA) (hv : Valid A) (hr : AllReachable A)
    (v : LoopVars) (h : FinalSpec A v) (B : DFA) (hB : Valid B)
    (halph : B.num_alphabet_symbols = A.num_alphabet_symbols) (hlang : SameLanguage A B) :
    v.num_current_partitions ≤ B.num_states := by
  classical
  have hP := h.1.1
  by_contra hlt
  push_neg at hlt
  have hwordB : ∀ w, IsWord A w → IsWord B w := by
    intro w hw k hk
    rw [halph]
    exact hw k hk
  have hex : ∀ c : Fin v.num_current_partitions, ∃ w, IsWord A w ∧
      v.state_partition_id (run A A.start_state.toNat w) = ((c : Nat) : Int) := by
    intro c
    obtain ⟨s, hs, hsc⟩ := hP.2 c c.2
    obtain ⟨w, hw, hrun⟩ := hr s hs
    exact ⟨w, hw, by rw [hrun]; exact hsc⟩
  choose g hg using hex
  have hfin : ∀ c, run B B.start_state.toNat (g c) < B.num_states := by
    intro c
    exact run_lt B hB (g c) _ (start_lt B hB) (hwordB _ (hg c).1)
  obtain ⟨c, d, hcd, hfcd⟩ := Fintype.exists_ne_map_eq_of_card_lt
    (fun c : Fin v.num_current_partitions =>
      (⟨run B B.start_state.toNat (g c), hfin c⟩ : Fin B.num_states))
    (by simpa using hlt)
  have hrunB : run B B.start_state.toNat (g c) = run B B.start_state.toNat (g d) := by
    simpa using hfcd
  have hs1 := run_lt A hv (g c) _ (start_lt A hv) (hg c).1
  have hs2 := run_lt A hv (g d) _ (start_lt A hv) (hg d).1
  have hne : v.state_partition_id (run A A.start_state.toNat (g c)) ≠
      v.state_partition_id (run A A.start_state.toNat (g d)) := by
    rw [(hg c).2, (hg d).2]
    intro heq
    apply hcd
    apply Fin.ext
    exact_mod_cast heq
  obtain ⟨u, hu, hsep⟩ := h.1.2.2 _ hs1 _ hs2 hne
  apply hsep
  have e1 := hlang (g c ++ u) ((hg c).1.append hu)
  have e2 := hlang (g d ++ u) ((hg d).1.append hu)
  unfold accepts accepts_from at e1 e2
  rw [run_append, run_append] at e1 e2
  unfold accepts_from
  rw [e1, e2, hrunB]

/-- C2 (as amended). Minimality under reachability: for every valid automaton
`A` all of whose states are reachable from the start state, no complete
automaton over the same alphabet that accepts the same words as `A` has
fewer states than `minimize_dfa(A)`. -/
theorem C2_minimal_if_reachable (ids0 : Nat → Int) (A out : DFA) (hv : Valid A)
    (hr : AllReachable A) :
    
    ∃ M, (∀ fuel, A.num_states ≤ fuel → minimize_dfa fuel ids0 A out = some M) ∧
      ∀ B, Valid B → B.num_alphabet_symbols = A.num_alphabet_symbols →
        SameLanguage A B → M.num_states ≤ B.num_states := by
  obtain ⟨v, _, h2, h3, _⟩ := minimize_dfa_total ids0 A out hv
  refine ⟨_, h2, ?_⟩
  intro B hB halph hlang
  exact classes_le_of_reachable A hv hr v h3 B hB halph hlang

theorem C2_minimal_if_reachable_witness :
    Valid exFour ∧ AllReachable exFour ∧
    ∃ M, (∀ fuel, exFour.num_states ≤ fuel → minimize_dfa fuel zero_ids exFour blank = some M) ∧
      ∀ B, Valid B → B.num_alphabet_symbols = exFour.num_alphabet_symbols →
        SameLanguage exFour B → M.num_states ≤ B.num_states :=
  ⟨by decide, exFour_reachable,
    C2_minimal_if_reachable zero_ids exFour blank (by decide) exFour_reachable⟩

/-- C2 fails as stated: the automaton `exUnreachable` (state 1 unreachable)
is valid, `minimize_dfa` returns an automaton with 2 states for it, and the
one-state automaton `exOne` over the same alphabet accepts the same words. -/
theorem C2_counterexample :
    Valid exUnreachable ∧
    ∃ M, minimize_dfa exUnreachable.num_states zero_ids exUnreachable blank = some M ∧
      ∃ B, Valid B ∧ B.num_alphabet_symbols = exUnreachable.num_alphabet_symbols ∧
        SameLanguage exUnreachable B ∧ B.num_states < M.num_states :=
  ⟨by decide, _, rfl, exOne, by decide, rfl, exUnreachable_language, by decide⟩

/-- C3. No over-merging: for every valid automaton the loop ends in a final
partition, and any two distinct states with different final class ids are
separated by a word: reading it from the one ends in an accepting state and
reading it from the other does not. -/
theorem C3_no_over_merging (ids0 : Nat → Int) (A : DFA) (hv : Valid A) :
    ∃ v, (∀ fuel, A.num_states ≤ fuel → final_partition ids0 A fuel = some v) ∧
      ∀ s1, s1 < A.num_states → ∀ s2, s2 < A.num_states → s1 ≠ s2 →
        v.state_partition_id s1 ≠ v.state_partition_id s2 →
        ∃ w, IsWord A w ∧ accepts_from A s1 w ≠ accepts_from A s2 w := by
  obtain ⟨v, h1, h2, _⟩ := final_partition_total ids0 A hv
  refine ⟨v, h1, ?_⟩
  intro s1 hs1 s2 hs2 _ hne
  exact h2.1.2.2 s1 hs1 s2 hs2 hne

theorem C3_no_over_merging_witness :
    Valid exFour ∧
    ∃ v, (∀ fuel, exFour.num_states ≤ fuel → final_partition zero_ids exFour fuel = some v) ∧
      ∀ s1, s1 < exFour.num_states → ∀ s2, s2 < exFour.num_states → s1 ≠ s2 →
        v.state_partition_id s1 ≠ v.state_partition_id s2 →
        ∃ w, IsWord exFour w ∧ accepts_from exFour s1 w ≠ accepts_from exFour s2 w :=
  ⟨by decide, C3_no_over_merging zero_ids exFour (by decide)⟩

/-- C4. Sound merging: for every valid automaton the loop ends in a final
partition, and two states with the same final class id are Myhill-Nerode
equivalent: every word leads both or neither to an accepting state. -/
theorem C4_sound_merging (ids0 : Nat → Int) (A : DFA) (hv : Valid A) :
    ∃ v, (∀ fuel, A.num_states ≤ fuel → final_partition ids0 A fuel = some v) ∧
      ∀ s1, s1 < A.num_states → ∀ s2, s2 < A.num_states →
        v.state_partition_id s1 = v.state_partition_id s2 → Equivalent A s1 s2 := by
  obtain ⟨v, h1, h2, _⟩ := final_partition_total ids0 A hv
  refine ⟨v, h1, ?_⟩
  intro s1 hs1 s2 hs2 heq w hw
  exact same_class_equivalent A hv v h2 w s1 s2 hs1 hs2 heq hw

theorem C4_sound_merging_witness :
    Valid exFour ∧
    ∃ v, (∀ fuel, exFour.num_states ≤ fuel → final_partition zero_ids exFour fuel = some v) ∧
      ∀ s1, s1 < exFour.num_states → ∀ s2, s2 < exFour.num_states →
        v.state_partition_id s1 = v.state_partition_id s2 → Equivalent exFour s1 s2 :=
  ⟨by decide, C4_sound_merging zero_ids exFour (by decide)⟩

/-- C5. Idempotence: for every valid automaton `A`, `minimize_dfa` returns an
automaton `M`, `minimize_dfa` applied to `M` returns an automaton `M2`, and
`M2` has as many states as `M` and accepts the same words as `M`. -/
theorem C5_idempotence (ids0 ids1 : Nat → Int) (A out out2 : DFA) (hv : Valid A) :
    ∃ M, (∀ fuel, A.num_states ≤ fuel → minimize_dfa fuel ids0 A out = some M) ∧
      ∃ M2, (∀ fuel, M.num_states ≤ fuel → minimize_dfa fuel ids1 M out2 = some M2) ∧
        M2.num_states = M.num_states ∧
        ∀ w, IsWord M w → (accepts M2 w = true ↔ accepts M w = true) := by
  obtain ⟨v, _, h2, h3, _⟩ := minimize_dfa_total ids0 A out hv
  have hvM := reconstruct_valid A out hv v h3
  obtain ⟨v2, _, g2, g3, _⟩ := minimize_dfa_total ids1 (reconstruct A v out) out2 hvM
  refine ⟨_, h2, _, g2, ?_, ?_⟩
  · exact reminimize_count A out hv v h3 v2 g3
  · intro w hw
    rw [reconstruct_accepts _ out2 hvM v2 g3 w hw]

theorem C5_idempotence_witness :
    Valid exFour ∧
    ∃ M, (∀ fuel, exFour.num_states ≤ fuel → minimize_dfa fuel zero_ids exFour blank = some M) ∧
      ∃ M2, (∀ fuel, M.num_states ≤ fuel → minimize_dfa fuel zero_ids M blank = some M2) ∧
        M2.num_states = M.num_states ∧
        ∀ w, IsWord M w → (accepts M2 w = true ↔ accepts M w = true) :=
  ⟨by decide, C5_idempotence zero_ids zero_ids exFour blank blank (by decide)⟩

/-- C6. The output is a well-formed automaton: for every valid `A` the result
`M` has as many states as there are distinct class ids in the final
partition, between 1 and `A.num_states`; it has the alphabet of `A` (count
and symbols); its start state is the class of the start state of `A` and
lies below `M.num_states`; and every transition written, for a class
`c < M.num_states` and a symbol index `j`, is a state index of `M`. -/
theorem C6_output_well_formed (ids0 : Nat → Int) (A out : DFA) (hv : Valid A) :
    ∃ v M, (∀ fuel, A.num_states ≤ fuel → final_partition ids0 A fuel = some v) ∧
      (∀ fuel, A.num_states ≤ fuel → minimize_dfa fuel ids0 A out = some M) ∧
      M.num_states = ((Finset.range A.num_states).image v.state_partition_id).card ∧
      1 ≤ M.num_states ∧ M.num_states ≤ A.num_states ∧
      M.num_alphabet_symbols = A.num_alphabet_symbols ∧
      (∀ i, i < A.num_alphabet_symbols → M.alphabet i = A.alphabet i) ∧
      M.start_state = v.state_partition_id A.start_state.toNat ∧
      (0 ≤ M.start_state ∧ M.start_state < (M.num_states : Int)) ∧
      ∀ c, c < M.num_states → ∀ j, j < M.num_alphabet_symbols →
        0 ≤ M.transitions c j ∧ M.transitions c j < (M.num_states : Int) := by
  obtain ⟨v, h1, h2, h3, _⟩ := minimize_dfa_total ids0 A out hv
  have hvM := reconstruct_valid A out hv v h3
  refine ⟨v, _, h1, h2, ?_, hvM.1, ?_, rfl, ?_, rfl, hvM.2.2.1, hvM.2.2.2⟩
  · exact h3.1.1.card_image.symm
  · exact h3.1.1.count_le
  · intro i hi
    show copy_alphabet A out.alphabet i = A.alphabet i
    rw [copy_alphabet_eq]
    simp [hi]

theorem C6_output_well_formed_witness :
    Valid exFour ∧
    ∃ v M, (∀ fuel, exFour.num_states ≤ fuel → final_partition zero_ids exFour fuel = some v) ∧
      (∀ fuel, exFour.num_states ≤ fuel → minimize_dfa fuel zero_ids exFour blank = some M) ∧
      M.num_states = ((Finset.range exFour.num_states).image v.state_partition_id).card ∧
      1 ≤ M.num_states ∧ M.num_states ≤ exFour.num_states ∧
      M.num_alphabet_symbols = exFour.num_alphabet_symbols ∧
      (∀ i, i < exFour.num_alphabet_symbols → M.alphabet i = exFour.alphabet i) ∧
      M.start_state = v.state_partition_id exFour.start_state.toNat ∧
      (0 ≤ M.start_state ∧ M.start_state < (M.num_states : Int)) ∧
      ∀ c, c < M.num_states → ∀ j, j < M.num_alphabet_symbols →
        0 ≤ M.transitions c j ∧ M.transitions c j < (M.num_states : Int) :=
  ⟨by decide, C6_output_well_formed zero_ids exFour blank (by decide)⟩

/-- C7. Representative independence: for every valid automaton, every
original state `s` and every symbol index `j`, the minimised transition of the
class of `s` on `j` is the class of the original target of `s` on `j`, the
classes being those of the final partition. -/
theorem C7_class_homomorphism (ids0 : Nat → Int) (A out : DFA) (hv : Valid A) :
    ∃ v M, (∀ fuel, A.num_states ≤ fuel → final_partition ids0 A fuel = some v) ∧
      (∀ fuel, A.num_states ≤ fuel → minimize_dfa fuel ids0 A out = some M) ∧
      ∀ s, s < A.num_states → ∀ j, j < A.num_alphabet_symbols →
        M.transitions (v.state_partition_id s).toNat j =
          v.state_partition_id (A.transitions s j).toNat := by
  obtain ⟨v, h1, h2, h3, _⟩ := minimize_dfa_total ids0 A out hv
  exact ⟨v, _, h1, h2, fun s hs j hj => reconstruct_transitions A out v h3 s j hs hj⟩

theorem C7_class_homomorphism_witness :
    Valid exFour ∧
    ∃ v M, (∀ fuel, exFour.num_states ≤ fuel → final_partition zero_ids exFour fuel = some v) ∧
      (∀ fuel, exFour.num_states ≤ fuel → minimize_dfa fuel zero_ids exFour blank = some M) ∧
      ∀ s, s < exFour.num_states → ∀ j, j < exFour.num_alphabet_symbols →
        M.transitions (v.state_partition_id s).toNat j =
          v.state_partition_id (exFour.transitions s j).toNat :=
  ⟨by decide, C7_class_homomorphism zero_ids exFour blank (by decide)⟩

/-- C8. Acceptance of a minimised state agrees with every member of its class:
for every valid automaton and every final class `c`, `M.is_final c` holds iff
the lowest-index member of `c` is accepting, iff some member of `c` is
accepting, iff every member of `c` is accepting; and for every original state
`s`, `M.is_final` at the class of `s` equals `A.is_final s`. -/
theorem C8_acceptance_agrees (ids0 : Nat → Int) (A out : DFA) (hv : Valid A) :
    ∃ v M, (∀ fuel, A.num_states ≤ fuel → final_partition ids0 A fuel = some v) ∧
      (∀ fuel, A.num_states ≤ fuel → minimize_dfa fuel ids0 A out = some M) ∧
      (∀ c, c < v.num_current_partitions →
        (∃ r, r < A.num_states ∧ v.state_partition_id r = (c : Int) ∧
          (∀ i, i < r → v.state_partition_id i ≠ (c : Int)) ∧
          (M.is_final c = true ↔ A.is_final r = true)) ∧
        (M.is_final c = true ↔
          ∃ s, s < A.num_states ∧ v.state_partition_id s = (c : Int) ∧
            A.is_final s = true) ∧
        (M.is_final c = true ↔
          ∀ s, s < A.num_states → v.state_partition_id s = (c : Int) →
            A.is_final s = true)) ∧
      ∀ s, s < A.num_states → M.is_final (v.state_partition_id s).toNat = A.is_final s := by
  obtain ⟨v, h1, h2, h3, _⟩ := minimize_dfa_total ids0 A out hv
  have hfin := reconstruct_is_final A out v h3
  have hP := h3.1.1
  have key : ∀ (c : Nat) s, s < A.num_states → v.state_partition_id s = (c : Int) →
      (reconstruct A v out).is_final c = A.is_final s := by
    intro c s hs hsc
    have := hfin s hs
    rw [hsc] at this
    simpa using this
  refine ⟨v, _, h1, h2, ?_, hfin⟩
  intro c hc
  obtain ⟨r, _, hr2, hr3, hr4⟩ := find_representative_spec A _ _ _ hP hc
  refine ⟨⟨r, hr2, hr3, hr4, by rw [key c r hr2 hr3]⟩, ?_, ?_⟩
  · constructor
    · intro hm
      exact ⟨r, hr2, hr3, by rw [← key c r hr2 hr3]; exact hm⟩
    · rintro ⟨s, hs, hsc, hf⟩
      rw [key c s hs hsc]; exact hf
  · constructor
    · intro hm s hs hsc
      rw [← key c s hs hsc]; exact hm
    · intro hall
      rw [key c r hr2 hr3]
      exact hall r hr2 hr3

theorem C8_acceptance_agrees_witness :
    Valid exFour ∧
    ∃ v M, (∀ fuel, exFour.num_states ≤ fuel → final_partition zero_ids exFour fuel = some v) ∧
      (∀ fuel, exFour.num_states ≤ fuel → minimize_dfa fuel zero_ids exFour blank = some M) ∧
      (∀ c, c < v.num_current_partitions →
        (∃ r, r < exFour.num_states ∧ v.state_partition_id r = (c : Int) ∧
          (∀ i, i < r → v.state_partition_id i ≠ (c : Int)) ∧
          (M.is_final c = true ↔ exFour.is_final r = true)) ∧
        (M.is_final c = true ↔
          ∃ s, s < exFour.num_states ∧ v.state_partition_id s = (c : Int) ∧
            exFour.is_final s = true) ∧
        (M.is_final c = true ↔
          ∀ s, s < exFour.num_states → v.state_partition_id s = (c : Int) →
            exFour.is_final s = true)) ∧
      ∀ s, s < exFour.num_states →
        M.is_final (v.state_partition_id s).toNat = exFour.is_final s :=
  ⟨by decide, C8_acceptance_agrees zero_ids exFour blank (by decide)⟩

/-- The numbering of the initial partition: with at least one accepting and
at least one non-accepting state there are two classes, the states that are
accepting exactly when state 0 is carrying id 0 and the others id 1; with
uniform acceptance there is one class and every state has id 0. -/
theorem initial_partition_numbering (ids0 : Nat → Int) (A : DFA) (hv : Valid A) :
    (((∃ i, i < A.num_states ∧ A.is_final i = true) ∧
        (∃ i, i < A.num_states ∧ A.is_final i = false)) →
      initial_count ids0 A = 2 ∧
      ∀ i, i < A.num_states →
        initial_ids ids0 A i = if A.is_final i = A.is_final 0 then 0 else 1) ∧
    (((∀ i, i < A.num_states → A.is_final i = true) ∨
        (∀ i, i < A.num_states → A.is_final i = false)) →
      initial_count ids0 A = 1 ∧ ∀ i, i < A.num_states → initial_ids ids0 A i = 0) := by
  obtain ⟨hids, hcase⟩ := init_loop_inv A ids0
  have hn := hv.1
  unfold initial_ids initial_count
  rcases hcase with ⟨h0, _⟩ | ⟨_, h1, h2, h3, h4⟩ | ⟨_, h1, h2, h3, h4⟩ |
      ⟨h1, h2, h3, h4, i0, h5, h6⟩ | ⟨h1, h2, h3, h4, i0, h5, h6⟩
  · omega
  · refine ⟨?_, ?_⟩
    · rintro ⟨_, i, hi, hf⟩
      rw [h4 i hi] at hf
      exact Bool.noConfusion hf
    · intro _
      refine ⟨h3, ?_⟩
      intro i hi
      rw [hids i hi, h4 i hi, h1]; simp
  · refine ⟨?_, ?_⟩
    · rintro ⟨⟨i, hi, hf⟩, _⟩
      rw [h4 i hi] at hf
      exact Bool.noConfusion hf
    · intro _
      refine ⟨h3, ?_⟩
      intro i hi
      rw [hids i hi, h4 i hi, h2]; simp
  · refine ⟨?_, ?_⟩
    · intro _
      refine ⟨h3, ?_⟩
      intro i hi
      rw [hids i hi, h1, h2, h4]
    · rintro (hall | hall)
      · rw [hall i0 h5] at h6
        exact Bool.noConfusion h6
      · rw [hall 0 (by omega)] at h4
        exact Bool.noConfusion h4
  · refine ⟨?_, ?_⟩
    · intro _
      refine ⟨h3, ?_⟩
      intro i hi
      rw [hids i hi, h1, h2, h4]
      cases A.is_final i <;> simp
    · rintro (hall | hall)
      · rw [hall 0 (by omega)] at h4
        exact Bool.noConfusion h4
      · rw [hall i0 h5] at h6
        exact Bool.noConfusion h6

/-- C9, the code at the failing input: `exLate` is valid and has an accepting
state (1) and a non-accepting state (0); step 1 gives `P0` two classes, and
the accepting state carries class id 1 and the non-accepting state class id
0, where the claim (and the comment on line 199) has class 0 = accepting
states and class 1 = non-accepting states. -/
theorem C9_initial_partition_at_exLate :
    Valid exLate ∧ exLate.is_final 1 = true ∧ exLate.is_final 0 = false ∧
    initial_count zero_ids exLate = 2 ∧ initial_ids zero_ids exLate 1 = 1 ∧
    initial_ids zero_ids exLate 0 = 0 := by
  decide

/-- C10. Monotone class count and termination: for every valid automaton the
do-while loop stops with its iteration counter at most `num_states`, the
partition it stops with is the one after that many rounds, and in every
round the class count after the round is at least the count before it. -/
theorem C10_monotone_and_terminates (ids0 : Nat → Int) (A : DFA) (hv : Valid A) :
    ∃ v, (∀ fuel, A.num_states ≤ fuel → final_partition ids0 A fuel = some v) ∧
      v.iteration ≤ A.num_states ∧ v = after_rounds ids0 A v.iteration ∧
      ∀ r, (after_rounds ids0 A r).num_current_partitions ≤
        (after_rounds ids0 A (r + 1)).num_current_partitions := by
  obtain ⟨v, h1, _, _, h4, h5⟩ := final_partition_total ids0 A hv
  refine ⟨v, h1, h4, h5, ?_⟩
  intro r
  exact round_body_count_le A (after_rounds ids0 A r) (after_rounds_inv ids0 A hv r)

theorem C10_monotone_and_terminates_witness :
    Valid exFour ∧
    ∃ v, (∀ fuel, exFour.num_states ≤ fuel → final_partition zero_ids exFour fuel = some v) ∧
      v.iteration ≤ exFour.num_states ∧ v = after_rounds zero_ids exFour v.iteration ∧
      ∀ r, (after_rounds zero_ids exFour r).num_current_partitions ≤
        (after_rounds zero_ids exFour (r + 1)).num_current_partitions :=
  ⟨by decide, C10_monotone_and_terminates zero_ids exFour (by decide)⟩

/-! ## Further facts about the loop -/

theorem get_alphabet_index_from_spec (alphabet : Nat → Char) (symbol : Char) (m i : Nat) :
    (get_alphabet_index_from alphabet symbol i m = -1 ∧
      ∀ j, i ≤ j → j < i + m → alphabet j ≠ symbol) ∨
    (∃ r : Nat, get_alphabet_index_from alphabet symbol i m = (r : Int) ∧ i ≤ r ∧
      r < i + m ∧ alphabet r = symbol ∧ ∀ j, i ≤ j → j < r → alphabet j ≠ symbol) := by
  induction m generalizing i with
  | zero =>
    left
    refine ⟨rfl, ?_⟩
    intro j h1 h2
    omega
  | succ m ih =>
    unfold get_alphabet_index_from
    by_cases h : alphabet i = symbol
    · right
      refine ⟨i, by simp [h], le_refl _, by omega, h, ?_⟩
      intro j h1 h2
      omega
    · simp only [h, if_false]
      rcases ih (i + 1) with ⟨h1, h2⟩ | ⟨r, h1, h2, h3, h4, h5⟩
      · left
        refine ⟨h1, ?_⟩
        intro j hj1 hj2
        by_cases hji : j = i
        · subst hji; exact h
        · exact h2 j (by omega) (by omega)
      · right
        refine ⟨r, h1, by omega, by omega, h4, ?_⟩
        intro j hj1 hj2
        by_cases hji : j = i
        · subst hji; exact h
        · exact h5 j (by omega) hj2

/-- A partition with a single class is reproduced by a round. -/
theorem single_class_stable (A : DFA) (hv : Valid A) (P : Nat → Int)
    (hP : PInv A.num_states P 1) : (refine_round A P 1).2 = 1 := by
  obtain ⟨⟨q1, q2⟩, hiff, hle, _⟩ := refine_round_spec A P 1 hP
  have hzero : ∀ i, i < A.num_states → P i = 0 := by
    intro i hi
    have := hP.1 i hi
    omega
  have hsame : ∀ i, i < A.num_states → ∀ j, j < A.num_states →
      (refine_round A P 1).1 i = (refine_round A P 1).1 j := by
    intro i hi j hj
    apply (hiff i hi j hj).2
    refine ⟨by rw [hzero i hi, hzero j hj], ?_⟩
    intro k hk
    rw [hzero _ (target_lt A hv i k hi hk), hzero _ (target_lt A hv j k hj hk)]
  by_contra hne
  have h2 : 2 ≤ (refine_round A P 1).2 := by omega
  obtain ⟨i, hi, hi0⟩ := q2 0 (by omega)
  obtain ⟨j, hj, hj1⟩ := q2 1 (by omega)
  have := hsame i hi j hj
  rw [hi0, hj1] at this
  omega

/-- The iteration counter on exit, bounded by the classes still to split. -/
theorem final_partition_iteration (ids0 : Nat → Int) (A : DFA) (hv : Valid A) :
    ∃ v, (∀ fuel, A.num_states ≤ fuel → final_partition ids0 A fuel = some v) ∧
      1 ≤ v.iteration ∧
      v.iteration + initial_count ids0 A ≤ A.num_states + 1 ∧
      (Stable A (loop_entry ids0 A) → v.iteration = 1) := by
  obtain ⟨r, h1, h2, _⟩ :=
    loop_runs A hv A.num_states (loop_entry ids0 A) (loop_entry_inv ids0 A hv)
      (by
        have := initial_count_pos ids0 A hv
        show A.num_states < A.num_states + initial_count ids0 A
        omega)
  have h1' : r + initial_count ids0 A ≤ A.num_states := h1
  rw [← after_rounds_iterate] at h2
  have hit : (after_rounds ids0 A (r + 1)).iteration = r + 1 :=
    after_rounds_iteration ids0 A (r + 1)
  refine ⟨after_rounds ids0 A (r + 1), ?_, ?_, ?_, ?_⟩
  · intro fuel hf
    exact refine_loop_mono A _ _ _ fuel h2 hf
  · rw [hit]; omega
  · rw [hit]; omega
  · intro hst
    obtain ⟨m, hm⟩ : ∃ m, A.num_states = m + 1 := ⟨A.num_states - 1, by have := hv.1; omega⟩
    rw [hm] at h2
    unfold refine_loop at h2
    have hst' : changed_flag A (loop_entry ids0 A).state_partition_id
        (loop_entry ids0 A).num_current_partitions
        (refine_round A (loop_entry ids0 A).state_partition_id
          (loop_entry ids0 A).num_current_partitions) = false := hst
    rw [hst'] at h2
    simp only [Bool.false_eq_true, if_false, Option.some.injEq] at h2
    rw [← h2]
    rfl

/-- With one class on entry the loop makes exactly one round. -/
theorem single_class_entry_stable (ids0 : Nat → Int) (A : DFA) (hv : Valid A)
    (h1 : initial_count ids0 A = 1) : Stable A (loop_entry ids0 A) := by
  have hP : PInv A.num_states (initial_ids ids0 A) 1 := by
    have := initial_PInv ids0 A hv.1
    rw [h1] at this
    exact this
  unfold Stable
  show changed_flag A (initial_ids ids0 A) (initial_count ids0 A)
    (refine_round A (initial_ids ids0 A) (initial_count ids0 A)) = false
  rw [h1]
  exact (changed_flag_round A _ 1 hP).2 (single_class_stable A hv _ hP)

/-- In an automaton whose states all agree on acceptance, a partition that
separates classes by words has a single class. -/
theorem uniform_single_class (A : DFA) (hv : Valid A) (v : LoopVars) (h : LoopInv A v)
    (hu : ∀ i, i < A.num_states → ∀ j, j < A.num_states → A.is_final i = A.is_final j) :
    v.num_current_partitions = 1 ∧ ∀ i, i < A.num_states → v.state_partition_id i = 0 := by
  obtain ⟨hP, _, hsep⟩ := h
  have hall : ∀ i, i < A.num_states → ∀ j, j < A.num_states →
      v.state_partition_id i = v.state_partition_id j := by
    intro i hi j hj
    by_contra hne
    obtain ⟨w, hw, hd⟩ := hsep i hi j hj hne
    apply hd
    exact hu _ (run_lt A hv w i hi hw) _ (run_lt A hv w j hj hw)
  have h0 : 0 < A.num_states := hv.1
  have hk : 1 ≤ v.num_current_partitions := by
    have := hP.1 0 h0
    omega
  obtain ⟨i0, hi0, hc0⟩ := hP.2 0 (by omega)
  have hone : v.num_current_partitions = 1 := by
    by_contra hne
    obtain ⟨i1, hi1, hc1⟩ := hP.2 1 (by omega)
    have := hall i0 hi0 i1 hi1
    rw [hc0, hc1] at this
    omega
  refine ⟨hone, ?_⟩
  intro i hi
  rw [hall i hi i0 hi0, hc0]
  rfl

/-- States with equal acceptance and equal signatures in the first `r` rounds
are in one class after `r` rounds. -/
theorem same_sig_rounds (ids0 : Nat → Int) (A : DFA) (hv : Valid A) (s1 s2 : Nat)
    (hs1 : s1 < A.num_states) (hs2 : s2 < A.num_states)
    (hacc : A.is_final s1 = A.is_final s2) (r : Nat) :
    (∀ q, q < r → SameSig A (after_rounds ids0 A q).state_partition_id s1 s2) →
    (after_rounds ids0 A r).state_partition_id s1 =
      (after_rounds ids0 A r).state_partition_id s2 := by
  induction r with
  | zero =>
    intro _
    exact (initial_ids_eq_iff ids0 A s1 s2 hs1 hs2).2 hacc
  | succ r ih =>
    intro hsig
    have hprev := ih (fun q hq => hsig q (by omega))
    have hP := (after_rounds_inv ids0 A hv r).1
    show (round_body A (after_rounds ids0 A r)).state_partition_id s1 =
      (round_body A (after_rounds ids0 A r)).state_partition_id s2
    rw [round_body_ids A _ s1 hs1, round_body_ids A _ s2 hs2]
    exact ((refine_round_spec A _ _ hP).2.1 s1 hs1 s2 hs2).2 ⟨hprev, hsig r (by omega)⟩

theorem exLate_same_sig (P : Nat → Int) : SameSig exLate P 0 1 :=
  fun _ _ => rfl

/-- C11 (as amended). Round bound: for every valid automaton the do-while loop
of `minimize_dfa` stops after at least one and at most
`max 1 (num_states - 1)` rounds, the round that detects stabilisation
included: exactly one round when `num_states = 1`, and at most
`num_states - 1` rounds when there are at least two states. -/
theorem C11_round_bound (ids0 : Nat → Int) (A : DFA) (hv : Valid A) :
    ∃ v, (∀ fuel, A.num_states ≤ fuel → final_partition ids0 A fuel = some v) ∧
      1 ≤ v.iteration ∧ v.iteration ≤ max 1 (A.num_states - 1) ∧
      (A.num_states = 1 → v.iteration = 1) ∧
      (2 ≤ A.num_states → v.iteration ≤ A.num_states - 1) := by
  obtain ⟨v, h1, hone, h2, h3⟩ := final_partition_iteration ids0 A hv
  have hpos := initial_count_pos ids0 A hv
  have hmax : v.iteration ≤ max 1 (A.num_states - 1) := by
    by_cases hk : initial_count ids0 A = 1
    · rw [h3 (single_class_entry_stable ids0 A hv hk)]
      exact le_max_left _ _
    · exact le_trans (by omega) (le_max_right _ _)
  refine ⟨v, h1, hone, hmax, ?_, ?_⟩
  · intro hn
    rw [hn] at hmax
    simp only [Nat.sub_self, Nat.zero_le, max_eq_left] at hmax
    omega
  · intro hn
    have : max 1 (A.num_states - 1) = A.num_states - 1 := max_eq_right (by omega)
    rw [this] at hmax
    exact hmax

theorem C11_round_bound_witness :
    (Valid exFour ∧ 2 ≤ exFour.num_states ∧
      ∃ v, (∀ fuel, exFour.num_states ≤ fuel →
          final_partition zero_ids exFour fuel = some v) ∧
        1 ≤ v.iteration ∧ v.iteration ≤ max 1 (exFour.num_states - 1) ∧
        (exFour.num_states = 1 → v.iteration = 1) ∧
        (2 ≤ exFour.num_states → v.iteration ≤ exFour.num_states - 1)) ∧
    (Valid exOne ∧ exOne.num_states = 1 ∧
      ∃ v, (∀ fuel, exOne.num_states ≤ fuel →
          final_partition zero_ids exOne fuel = some v) ∧
        1 ≤ v.iteration ∧ v.iteration ≤ max 1 (exOne.num_states - 1) ∧
        (exOne.num_states = 1 → v.iteration = 1) ∧
        (2 ≤ exOne.num_states → v.iteration ≤ exOne.num_states - 1)) :=
  ⟨⟨by decide, by decide, C11_round_bound zero_ids exFour (by decide)⟩,
    ⟨by decide, by decide, C11_round_bound zero_ids exOne (by decide)⟩⟩

/-- C11 fails as stated: the one-state automaton `exOne` is valid and the loop
makes one round for it, more than `num_states - 1 = 0`. -/
theorem C11_counterexample :
    Valid exOne ∧
    ∃ v, final_partition zero_ids exOne exOne.num_states = some v ∧
      v.iteration = 1 ∧ ¬ v.iteration ≤ exOne.num_states - 1 :=
  ⟨by decide, _, rfl, rfl, by decide⟩

/-- C12. Uniform-acceptance automata collapse to one state: for every valid
automaton whose states are all accepting or all non-accepting, `minimize_dfa`
returns an automaton with exactly one state, start state 0, `is_final[0]`
equal to the common acceptance value, and `transitions[0][j] = 0` for every
symbol index `j`. -/
theorem C12_uniform_collapses (ids0 : Nat → Int) (A out : DFA) (hv : Valid A)
    (hu : (∀ i, i < A.num_states → A.is_final i = true) ∨
      (∀ i, i < A.num_states → A.is_final i = false)) :
    ∃ M, (∀ fuel, A.num_states ≤ fuel → minimize_dfa fuel ids0 A out = some M) ∧
      M.num_states = 1 ∧ M.start_state = 0 ∧
      (∀ s, s < A.num_states → M.is_final 0 = A.is_final s) ∧
      ∀ j, j < A.num_alphabet_symbols → M.transitions 0 j = 0 := by
  obtain ⟨v, _, h2, h3, _⟩ := minimize_dfa_total ids0 A out hv
  have hu' : ∀ i, i < A.num_states → ∀ j, j < A.num_states →
      A.is_final i = A.is_final j := by
    intro i hi j hj
    rcases hu with h | h
    · rw [h i hi, h j hj]
    · rw [h i hi, h j hj]
  obtain ⟨hone, hzero⟩ := uniform_single_class A hv v h3.1 hu'
  have h0 : 0 < A.num_states := hv.1
  refine ⟨_, h2, hone, hzero _ (start_lt A hv), ?_, ?_⟩
  · intro s hs
    have := reconstruct_is_final A out v h3 s hs
    rw [hzero s hs] at this
    exact this
  · intro j hj
    have := reconstruct_transitions A out v h3 0 j h0 hj
    rw [hzero 0 h0, hzero _ (target_lt A hv 0 j h0 hj)] at this
    exact this

theorem C12_uniform_collapses_witness :
    Valid exTwoAccepting ∧
    ((∀ i, i < exTwoAccepting.num_states → exTwoAccepting.is_final i = true) ∨
      (∀ i, i < exTwoAccepting.num_states → exTwoAccepting.is_final i = false)) ∧
    ∃ M, (∀ fuel, exTwoAccepting.num_states ≤ fuel →
        minimize_dfa fuel zero_ids exTwoAccepting blank = some M) ∧
      M.num_states = 1 ∧ M.start_state = 0 ∧
      (∀ s, s < exTwoAccepting.num_states → M.is_final 0 = exTwoAccepting.is_final s) ∧
      ∀ j, j < exTwoAccepting.num_alphabet_symbols → M.transitions 0 j = 0 :=
  ⟨by decide, by decide,
    C12_uniform_collapses zero_ids exTwoAccepting blank (by decide) (by decide)⟩

/-- C13 (as amended). No under-merging: for every valid automaton and every
two states `s1`, `s2` that are both accepting or both non-accepting, if in
every refinement round the signatures of `s1` and `s2`, taken against the
partition the round starts from, are identical, then `s1` and `s2` have the
same class id in the final partition. -/
theorem C13_no_under_merging (ids0 : Nat → Int) (A : DFA) (hv : Valid A) :
    ∃ v, (∀ fuel, A.num_states ≤ fuel → final_partition ids0 A fuel = some v) ∧
      ∀ s1, s1 < A.num_states → ∀ s2, s2 < A.num_states →
        A.is_final s1 = A.is_final s2 →
        (∀ r, r < v.iteration →
          ∀ k, k < A.num_alphabet_symbols →
            (after_rounds ids0 A r).state_partition_id (A.transitions s1 k).toNat =
              (after_rounds ids0 A r).state_partition_id (A.transitions s2 k).toNat) →
        v.state_partition_id s1 = v.state_partition_id s2 := by
  obtain ⟨v, h1, _, _, _, h5⟩ := final_partition_total ids0 A hv
  refine ⟨v, h1, ?_⟩
  intro s1 hs1 s2 hs2 hacc hsig
  have := same_sig_rounds ids0 A hv s1 s2 hs1 hs2 hacc v.iteration hsig
  rw [← h5] at this
  exact this

theorem C13_no_under_merging_witness :
    Valid exFour ∧
    ∃ v, (∀ fuel, exFour.num_states ≤ fuel →
        final_partition zero_ids exFour fuel = some v) ∧
      ∀ s1, s1 < exFour.num_states → ∀ s2, s2 < exFour.num_states →
        exFour.is_final s1 = exFour.is_final s2 →
        (∀ r, r < v.iteration →
          ∀ k, k < exFour.num_alphabet_symbols →
            (after_rounds zero_ids exFour r).state_partition_id
                (exFour.transitions s1 k).toNat =
              (after_rounds zero_ids exFour r).state_partition_id
                (exFour.transitions s2 k).toNat) →
        v.state_partition_id s1 = v.state_partition_id s2 :=
  ⟨by decide, C13_no_under_merging zero_ids exFour (by decide)⟩

/-- C13 fails as stated: in the valid automaton `exLate` the states 0 and 1
have the same transition targets, hence identical signatures against every
partition and in every round, yet their final class ids differ (state 1 is
accepting, state 0 is not). -/
theorem C13_counterexample :
    Valid exLate ∧
    (∀ r, ∀ k, k < exLate.num_alphabet_symbols →
      (after_rounds zero_ids exLate r).state_partition_id (exLate.transitions 0 k).toNat =
        (after_rounds zero_ids exLate r).state_partition_id
          (exLate.transitions 1 k).toNat) ∧
    ∃ v, final_partition zero_ids exLate exLate.num_states = some v ∧
      v.state_partition_id 0 ≠ v.state_partition_id 1 :=
  ⟨by decide, fun r => exLate_same_sig _, _, rfl, by decide⟩

/-- C14. The function `get_alphabet_index(dfa, symbol)`: when `symbol` occurs
among the first `num_alphabet_symbols` alphabet entries it returns the least
index `i` with `alphabet[i] = symbol`, which lies in
`0..num_alphabet_symbols-1`; and it returns `-1` if and only if `symbol` does
not occur among them. -/
theorem C14_get_alphabet_index (dfa : DFA) (symbol : Char) :
    ((∃ i, i < dfa.num_alphabet_symbols ∧ dfa.alphabet i = symbol) →
      ∃ r : Nat, get_alphabet_index dfa symbol = (r : Int) ∧
        r < dfa.num_alphabet_symbols ∧ dfa.alphabet r = symbol ∧
        ∀ j, j < r → dfa.alphabet j ≠ symbol) ∧
    (get_alphabet_index dfa symbol = -1 ↔
      ¬ ∃ i, i < dfa.num_alphabet_symbols ∧ dfa.alphabet i = symbol) := by
  unfold get_alphabet_index
  rcases get_alphabet_index_from_spec dfa.alphabet symbol dfa.num_alphabet_symbols 0 with
    ⟨h1, h2⟩ | ⟨r, h1, _, h3, h4, h5⟩
  · have hno : ¬ ∃ i, i < dfa.num_alphabet_symbols ∧ dfa.alphabet i = symbol := by
      rintro ⟨i, hi, hs⟩
      exact h2 i (by omega) (by omega) hs
    refine ⟨fun h => absurd h hno, ?_⟩
    exact ⟨fun _ => hno, fun _ => h1⟩
  · refine ⟨fun _ => ⟨r, h1, by omega, h4, fun j hj => h5 j (by omega) hj⟩, ?_⟩
    constructor
    · intro hneg
      rw [h1] at hneg
      omega
    · intro hno
      exact absurd ⟨r, by omega, h4⟩ hno

/-- An entry with an out-of-range current state that is typed last, without a
newline after it, keeps control in the loop of line 109. -/
theorem read_transitions_unterminated :
    read_transitions false exLate [exUnterminatedEntry] = Outcome.never_returns :=
  rfl

/-- C15 (as amended). A transition entry with an out-of-range target is
skipped, not fatal: when the automaton is being constructed and a transition
entry whose current state is in range names a target state index equal to
`num_states`, the entry is skipped: the automaton under construction is left
unchanged by that entry and construction continues with the next entry,
ending as it would without the entry. -/
theorem C15_bad_target_skipped (dfa : DFA) (e : TransitionEntry)
    (rest : List TransitionEntry) (h0 : 0 ≤ e.current_state)
    (h1 : e.current_state < (dfa.num_states : Int))
    (hn : e.next_state = (dfa.num_states : Int)) :
    read_transition dfa e = dfa ∧
    read_transitions false dfa (e :: rest) = read_transitions false dfa rest := by
  have hskip : read_transition dfa e = dfa := by
    unfold read_transition
    by_cases h2 : get_alphabet_index dfa e.symbol_char = -1
    · rw [if_pos h2]
    · rw [if_neg h2, if_pos (Or.inr (by rw [hn]))]
  refine ⟨hskip, ?_⟩
  have hc : ¬ e.current_state = -1 := by omega
  have hr : ¬ (e.current_state < 0 ∨ e.current_state ≥ (dfa.num_states : Int)) := by omega
  show (if e.current_state = -1 then Outcome.returned dfa
    else if e.current_state < 0 ∨ e.current_state ≥ (dfa.num_states : Int) then
      read_transitions (!e.newline) dfa rest
    else read_transitions false (read_transition dfa e) rest) = _
  rw [if_neg hc, if_neg hr, hskip]

theorem C15_bad_target_skipped_witness :
    0 ≤ exBadEntry.current_state ∧
    exBadEntry.current_state < (exLate.num_states : Int) ∧
    exBadEntry.next_state = (exLate.num_states : Int) ∧
    (read_transition exLate exBadEntry = exLate ∧
      read_transitions false exLate (exBadEntry :: []) = read_transitions false exLate []) :=
  ⟨by decide, by decide, by decide,
    C15_bad_target_skipped exLate exBadEntry [] (by decide) (by decide) (by decide)⟩

/-- C15 fails as stated: the first transition line of `exBadInput`, `0 a 2`,
names the target 2 for an automaton with 2 states, yet `get_dfa_input` returns
an automaton, valid and with the later lines `0 a 1` and `1 a 1` stored, which
then goes to `minimize_dfa`. -/
theorem C15_counterexample :
    exBadInput.transitions.head? = some exBadEntry ∧
    exBadEntry.next_state = exBadInput.num_states ∧
    ∃ d, get_dfa_input exBadInput blank = Outcome.returned d ∧ Valid d ∧
      d.transitions 0 0 = 1 ∧ d.transitions 1 0 = 1 :=
  ⟨rfl, by decide, _, rfl, by decide, by decide, by decide⟩

/-- C16. One refinement round computes exactly the signature split: for every
valid automaton, every partition `P` with `k` classes that satisfies the
partition invariant, and every two states `s1`, `s2`, the new ids of `s1` and
`s2` after the round are equal iff `P s1 = P s2` and, for every symbol index,
the targets of `s1` and `s2` lie in the same class of `P`. In particular the
new partition refines `P`. -/
theorem C16_round_is_signature_split (A : DFA) (_hv : Valid A) (P : Nat → Int) (k : Nat)
    (hP : PInv A.num_states P k) :
    (∀ s1, s1 < A.num_states → ∀ s2, s2 < A.num_states →
      ((refine_round A P k).1 s1 = (refine_round A P k).1 s2 ↔
        (P s1 = P s2 ∧
          ∀ j, j < A.num_alphabet_symbols →
            P (A.transitions s1 j).toNat = P (A.transitions s2 j).toNat))) ∧
    (∀ s1, s1 < A.num_states → ∀ s2, s2 < A.num_states →
      (refine_round A P k).1 s1 = (refine_round A P k).1 s2 → P s1 = P s2) := by
  have hiff := (refine_round_spec A P k hP).2.1
  exact ⟨hiff, fun s1 hs1 s2 hs2 h => ((hiff s1 hs1 s2 hs2).1 h).1⟩

theorem C16_round_is_signature_split_witness :
    Valid exFour ∧
    PInv exFour.num_states (initial_ids zero_ids exFour) (initial_count zero_ids exFour) ∧
    ((∀ s1, s1 < exFour.num_states → ∀ s2, s2 < exFour.num_states →
      ((refine_round exFour (initial_ids zero_ids exFour)
            (initial_count zero_ids exFour)).1 s1 =
          (refine_round exFour (initial_ids zero_ids exFour)
            (initial_count zero_ids exFour)).1 s2 ↔
        (initial_ids zero_ids exFour s1 = initial_ids zero_ids exFour s2 ∧
          ∀ j, j < exFour.num_alphabet_symbols →
            initial_ids zero_ids exFour (exFour.transitions s1 j).toNat =
              initial_ids zero_ids exFour (exFour.transitions s2 j).toNat))) ∧
    (∀ s1, s1 < exFour.num_states → ∀ s2, s2 < exFour.num_states →
      (refine_round exFour (initial_ids zero_ids exFour)
          (initial_count zero_ids exFour)).1 s1 =
        (refine_round exFour (initial_ids zero_ids exFour)
          (initial_count zero_ids exFour)).1 s2 →
      initial_ids zero_ids exFour s1 = initial_ids zero_ids exFour s2)) :=
  ⟨by decide, initial_PInv zero_ids exFour (by decide),
    C16_round_is_signature_split exFour (by decide) _ _
      (initial_PInv zero_ids exFour (by decide))⟩

/-- C17. Partition invariant: for every valid automaton, after the initial
partition (`r = 0`) and after every refinement round (`r > 0`), every state
`i < num_states` has a class id in `0..num_current_partitions-1`, never the
marker `-1`, and every id in `0..num_current_partitions-1` is the class of
some state. -/
theorem C17_partition_invariant (ids0 : Nat → Int) (A : DFA) (hv : Valid A) (r : Nat) :
    (∀ i, i < A.num_states →
      0 ≤ (after_rounds ids0 A r).state_partition_id i ∧
      (after_rounds ids0 A r).state_partition_id i <
        ((after_rounds ids0 A r).num_current_partitions : Int) ∧
      (after_rounds ids0 A r).state_partition_id i ≠ -1) ∧
    (∀ c, c < (after_rounds ids0 A r).num_current_partitions →
      ∃ i, i < A.num_states ∧ (after_rounds ids0 A r).state_partition_id i = (c : Int)) := by
  obtain ⟨h1, h2⟩ := (after_rounds_inv ids0 A hv r).1
  refine ⟨?_, h2⟩
  intro i hi
  have := h1 i hi
  exact ⟨this.1, this.2, by omega⟩

theorem C17_partition_invariant_witness :
    Valid exFour ∧
    ((∀ i, i < exFour.num_states →
      0 ≤ (after_rounds zero_ids exFour 1).state_partition_id i ∧
      (after_rounds zero_ids exFour 1).state_partition_id i <
        ((after_rounds zero_ids exFour 1).num_current_partitions : Int) ∧
      (after_rounds zero_ids exFour 1).state_partition_id i ≠ -1) ∧
    (∀ c, c < (after_rounds zero_ids exFour 1).num_current_partitions →
      ∃ i, i < exFour.num_states ∧
        (after_rounds zero_ids exFour 1).state_partition_id i = (c : Int))) :=
  ⟨by decide, C17_partition_invariant zero_ids exFour (by decide) 1⟩

/-- C18. The loop exits exactly at a fixpoint: the stabilisation check leaves
`changed = false` iff the new class count equals the previous count and every
state has the same class id as before; and for every valid automaton the
partition the loop exits with, used for reconstruction, is reproduced by one
more refinement round, count and class id of every state. -/
theorem C18_exit_at_fixpoint (ids0 : Nat → Int) (A : DFA) (hv : Valid A) :
    (∀ (P : Nat → Int) (k : Nat) (r : (Nat → Int) × Nat),
      changed_flag A P k r = false ↔
        (r.2 = k ∧ ∀ i, i < A.num_states → P i = r.1 i)) ∧
    ∃ v, (∀ fuel, A.num_states ≤ fuel → final_partition ids0 A fuel = some v) ∧
      (refine_round A v.state_partition_id v.num_current_partitions).2 =
        v.num_current_partitions ∧
      ∀ i, i < A.num_states →
        (refine_round A v.state_partition_id v.num_current_partitions).1 i =
          v.state_partition_id i := by
  refine ⟨fun P k r => changed_flag_false_iff A P k r, ?_⟩
  obtain ⟨v, h1, h2, _⟩ := final_partition_total ids0 A hv
  obtain ⟨e1, e2⟩ := (changed_flag_false_iff _ _ _ _).1 h2.2.1
  exact ⟨v, h1, e1, fun i hi => (e2 i hi).symm⟩

theorem C18_exit_at_fixpoint_witness :
    Valid exFour ∧
    ((∀ (P : Nat → Int) (k : Nat) (r : (Nat → Int) × Nat),
      changed_flag exFour P k r = false ↔
        (r.2 = k ∧ ∀ i, i < exFour.num_states → P i = r.1 i)) ∧
    ∃ v, (∀ fuel, exFour.num_states ≤ fuel →
        final_partition zero_ids exFour fuel = some v) ∧
      (refine_round exFour v.state_partition_id v.num_current_partitions).2 =
        v.num_current_partitions ∧
      ∀ i, i < exFour.num_states →
        (refine_round exFour v.state_partition_id v.num_current_partitions).1 i =
          v.state_partition_id i) :=
  ⟨by decide, C18_exit_at_fixpoint zero_ids exFour (by decide)⟩

/-- C19. Representative selection is total and picks the lowest-index member:
for every valid automaton and every class id `p` below the class count at
reconstruction, the search returns a state index, never `-1`, and that state
is the smallest index `i` with `state_partition_id[i] = p`. -/
theorem C19_representative_lowest (ids0 : Nat → Int) (A : DFA) (hv : Valid A) :
    ∃ v, (∀ fuel, A.num_states ≤ fuel → final_partition ids0 A fuel = some v) ∧
      ∀ p, p < v.num_current_partitions →
        find_representative A v.state_partition_id p ≠ -1 ∧
        ∃ r : Nat, find_representative A v.state_partition_id p = (r : Int) ∧
          r < A.num_states ∧ v.state_partition_id r = (p : Int) ∧
          ∀ i, i < r → v.state_partition_id i ≠ (p : Int) := by
  obtain ⟨v, h1, h2, _⟩ := final_partition_total ids0 A hv
  refine ⟨v, h1, ?_⟩
  intro p hp
  obtain ⟨r, hr1, hr2, hr3, hr4⟩ := find_representative_spec A _ _ _ h2.1.1 hp
  exact ⟨by rw [hr1]; omega, r, hr1, hr2, hr3, hr4⟩

theorem C19_representative_lowest_witness :
    Valid exFour ∧
    ∃ v, (∀ fuel, exFour.num_states ≤ fuel →
        final_partition zero_ids exFour fuel = some v) ∧
      ∀ p, p < v.num_current_partitions →
        find_representative exFour v.state_partition_id p ≠ -1 ∧
        ∃ r : Nat, find_representative exFour v.state_partition_id p = (r : Int) ∧
          r < exFour.num_states ∧ v.state_partition_id r = (p : Int) ∧
          ∀ i, i < r → v.state_partition_id i ≠ (p : Int) :=
  ⟨by decide, C19_representative_lowest zero_ids exFour (by decide)⟩

/-- C20. The per-state comparison of the stabilisation check is redundant: for
every valid automaton and every round that starts from a partition `P` with
`k` classes satisfying the partition invariant, if the new class count equals
`k` then every state keeps its class id; hence the round reports `changed`
exactly when the class count strictly increases. -/
theorem C20_id_comparison_redundant (A : DFA) (_hv : Valid A) (P : Nat → Int) (k : Nat)
    (hP : PInv A.num_states P k) :
    ((refine_round A P k).2 = k →
      ∀ i, i < A.num_states → (refine_round A P k).1 i = P i) ∧
    (changed_flag A P k (refine_round A P k) = true ↔ k < (refine_round A P k).2) := by
  obtain ⟨_, _, hle, heq⟩ := refine_round_spec A P k hP
  refine ⟨heq, ?_⟩
  have hiff := changed_flag_round A P k hP
  constructor
  · intro hc
    by_contra hlt
    have : (refine_round A P k).2 = k := by omega
    rw [hiff.2 this] at hc
    exact Bool.false_ne_true hc
  · intro hlt
    by_contra hc
    have hc' : changed_flag A P k (refine_round A P k) = false := by simpa using hc
    have := hiff.1 hc'
    omega

theorem C20_id_comparison_redundant_witness :
    Valid exFour ∧
    PInv exFour.num_states (after_rounds zero_ids exFour 1).state_partition_id
      (after_rounds zero_ids exFour 1).num_current_partitions ∧
    (after_rounds zero_ids exFour 1).num_current_partitions = 3 ∧
    (refine_round exFour (after_rounds zero_ids exFour 1).state_partition_id
        (after_rounds zero_ids exFour 1).num_current_partitions).2 =
      (after_rounds zero_ids exFour 1).num_current_partitions ∧
    (((refine_round exFour (after_rounds zero_ids exFour 1).state_partition_id
          (after_rounds zero_ids exFour 1).num_current_partitions).2 =
        (after_rounds zero_ids exFour 1).num_current_partitions →
      ∀ i, i < exFour.num_states →
        (refine_round exFour (after_rounds zero_ids exFour 1).state_partition_id
          (after_rounds zero_ids exFour 1).num_current_partitions).1 i =
          (after_rounds zero_ids exFour 1).state_partition_id i) ∧
    (changed_flag exFour (after_rounds zero_ids exFour 1).state_partition_id
        (after_rounds zero_ids exFour 1).num_current_partitions
        (refine_round exFour (after_rounds zero_ids exFour 1).state_partition_id
          (after_rounds zero_ids exFour 1).num_current_partitions) = true ↔
      (after_rounds zero_ids exFour 1).num_current_partitions <
        (refine_round exFour (after_rounds zero_ids exFour 1).state_partition_id
          (after_rounds zero_ids exFour 1).num_current_partitions).2)) :=
  ⟨by decide, (after_rounds_inv zero_ids exFour (by decide) 1).1, by decide, by decide,
    C20_id_comparison_redundant exFour (by decide) _ _
      (after_rounds_inv zero_ids exFour (by decide) 1).1⟩

end DFAMin

namespace DAG

/-! ## The DAG table -/

theorem op_matches_iff (n : DAGNode) (op_type : OpType) (left right : Nat) :
    op_matches n op_type left right = true ↔ IsOpNode n op_type left right := by
  unfold op_matches IsOpNode
  simp only [Bool.and_eq_true, decide_eq_true_eq, and_assoc]

theorem find_op_from_spec (dag_nodes : Nat → DAGNode) (op_type : OpType) (left right : Nat)
    (m i : Nat) :
    (find_op_from dag_nodes op_type left right i m = none ∧
      ∀ j, i ≤ j → j < i + m → ¬ IsOpNode (dag_nodes j) op_type left right) ∨
    (∃ r, find_op_from dag_nodes op_type left right i m = some r ∧ i ≤ r ∧ r < i + m ∧
      IsOpNode (dag_nodes r) op_type left right ∧
      ∀ j, i ≤ j → j < r → ¬ IsOpNode (dag_nodes j) op_type left right) := by
  induction m generalizing i with
  | zero =>
    left
    refine ⟨rfl, ?_⟩
    intro j h1 h2
    omega
  | succ m ih =>
    unfold find_op_from
    by_cases h : op_matches (dag_nodes i) op_type left right = true
    · right
      refine ⟨i, by simp [h], le_refl _, by omega, (op_matches_iff _ _ _ _).1 h, ?_⟩
      intro j h1 h2
      omega
    · have hi : ¬ IsOpNode (dag_nodes i) op_type left right :=
        fun hc => h ((op_matches_iff _ _ _ _).2 hc)
      simp only [h, if_false]
      rcases ih (i + 1) with ⟨h1, h2⟩ | ⟨r, h1, h2, h3, h4, h5⟩
      · left
        refine ⟨h1, ?_⟩
        intro j hj1 hj2
        by_cases hji : j = i
        · subst hji; exact hi
        · exact h2 j (by omega) (by omega)
      · right
        refine ⟨r, h1, by omega, by omega, h4, ?_⟩
        intro j hj1 hj2
        by_cases hji : j = i
        · subst hji; exact hi
        · exact h5 j (by omega) hj2

theorem store_store (a : Nat → DAGNode) (i : Nat) (x y : DAGNode) :
    DFAMin.store (DFAMin.store a i x) i y = DFAMin.store a i y := by
  funext j
  by_cases hj : j = i <;> simp [DFAMin.store, hj]

/-- When a matching operation node exists, `get_op_node` returns the first one
and leaves the table as it is. -/
theorem get_op_node_found (t : DAGTable) (op_type : OpType) (left right : Nat)
    (raw : NodeData)
    (h : ∃ i, i < t.next_node_id ∧ IsOpNode (t.dag_nodes i) op_type left right) :
    ∃ j, j < t.next_node_id ∧ IsOpNode (t.dag_nodes j) op_type left right ∧
      (∀ i, i < j → ¬ IsOpNode (t.dag_nodes i) op_type left right) ∧
      get_op_node t op_type left right raw = some (t, j) := by
  obtain ⟨i, hi, hm⟩ := h
  rcases find_op_from_spec t.dag_nodes op_type left right t.next_node_id 0 with
    ⟨_, h2⟩ | ⟨r, h1, _, h3, h4, h5⟩
  · exact absurd hm (h2 i (by omega) (by omega))
  · refine ⟨r, by omega, h4, fun j hj => h5 j (by omega) hj, ?_⟩
    unfold get_op_node
    rw [h1]

/-- What `get_op_node` does when no matching operation node exists and the
table has room: it stores the new node at index `next_node_id`. -/
theorem get_op_node_created (t : DAGTable) (op_type : OpType) (left right : Nat)
    (raw : NodeData)
    (hnone : find_op_from t.dag_nodes op_type left right 0 t.next_node_id = none)
    (hroom : t.next_node_id < MAX_NODES) :
    get_op_node t op_type left right raw =
      some
        ({ dag_nodes :=
            DFAMin.store t.dag_nodes t.next_node_id
              { id := t.next_node_id, type := NodeType.NODE_OP,
                data :=
                  { var_name := raw.var_name, op_type := op_type, left := left,
                    right := right } }
           next_node_id := t.next_node_id + 1 },
          t.next_node_id) := by
  unfold get_op_node create_node
  rw [hnone]
  have hge : ¬ t.next_node_id ≥ MAX_NODES := by omega
  simp only [hge, if_false, DFAMin.store_same]
  rw [store_store]

/-- A second call with the same operator and operands returns the node of
the first call and changes nothing. -/
theorem get_op_node_again (t : DAGTable) (op_type : OpType) (left right : Nat)
    (raw raw2 : NodeData) (t1 : DAGTable) (p : Nat)
    (h : get_op_node t op_type left right raw = some (t1, p)) :
    get_op_node t1 op_type left right raw2 = some (t1, p) := by
  rcases find_op_from_spec t.dag_nodes op_type left right t.next_node_id 0 with
    ⟨h1, h2⟩ | ⟨r, h1, _, h3, h4, h5⟩
  · by_cases hroom : t.next_node_id < MAX_NODES
    · rw [get_op_node_created t op_type left right raw h1 hroom] at h
      simp only [Option.some.injEq, Prod.mk.injEq] at h
      obtain ⟨ht1, hp⟩ := h
      subst hp
      have hnodes : ∀ j, j < t.next_node_id → t1.dag_nodes j = t.dag_nodes j := by
        intro j hj
        rw [← ht1]
        exact DFAMin.store_other _ _ _ _ (by omega)
      have hnew : IsOpNode (t1.dag_nodes t.next_node_id) op_type left right := by
        rw [← ht1]
        simp only [DFAMin.store_same]
        exact ⟨rfl, rfl, rfl, rfl⟩
      have hnext : t1.next_node_id = t.next_node_id + 1 := by rw [← ht1]
      rcases find_op_from_spec t1.dag_nodes op_type left right t1.next_node_id 0 with
        ⟨_, g2⟩ | ⟨r, g1, _, g3, g4, g5⟩
      · exact absurd hnew (g2 _ (by omega) (by omega))
      · have hr : r = t.next_node_id := by
          by_contra hne
          have hlt : r < t.next_node_id := by omega
          rw [hnodes r hlt] at g4
          exact h2 r (by omega) (by omega) g4
        unfold get_op_node
        rw [g1, hr]
    · unfold get_op_node create_node at h
      rw [h1] at h
      have hge : t.next_node_id ≥ MAX_NODES := by omega
      simp only [hge, if_true] at h
      exact absurd h (by simp)
  · have hfirst : get_op_node t op_type left right raw = some (t, r) := by
      unfold get_op_node
      rw [h1]
    rw [hfirst] at h
    simp only [Option.some.injEq, Prod.mk.injEq] at h
    obtain ⟨ht1, hp⟩ := h
    subst ht1
    subst hp
    unfold get_op_node
    rw [h1]

/-- With room in the table `get_op_node` returns a node. -/
theorem get_op_node_returns (t : DAGTable) (op_type : OpType) (left right : Nat)
    (raw : NodeData) (hroom : t.next_node_id < MAX_NODES) :
    ∃ t1 p, get_op_node t op_type left right raw = some (t1, p) := by
  rcases find_op_from_spec t.dag_nodes op_type left right t.next_node_id 0 with
    ⟨h1, _⟩ | ⟨r, h1, _⟩
  · exact ⟨_, _, get_op_node_created t op_type left right raw h1 hroom⟩
  · refine ⟨t, r, ?_⟩
    unfold get_op_node
    rw [h1]

/-- The construction of `a*b + (a*b)` from an empty table. -/
theorem build_main_spec (nodes0 : Nat → DAGNode) (ra rb r1 r2 r3 : NodeData) :
    ∃ res, build_main { dag_nodes := nodes0, next_node_id := 0 } ra rb r1 r2 r3 = some res ∧
      res.table.next_node_id = 4 ∧
      res.node_a = 0 ∧ res.node_b = 1 ∧ res.node_mul_ab_1 = 2 ∧ res.node_mul_ab_2 = 2 ∧
      res.node_add = 3 ∧
      IsVarNode (res.table.dag_nodes 0) 'a' ∧ IsVarNode (res.table.dag_nodes 1) 'b' ∧
      IsOpNode (res.table.dag_nodes 2) OpType.OP_MUL 0 1 ∧
      IsOpNode (res.table.dag_nodes 3) OpType.OP_ADD 2 2 :=
  ⟨_, rfl, rfl, rfl, rfl, rfl, rfl, rfl, ⟨rfl, rfl⟩, ⟨rfl, rfl⟩, ⟨rfl, rfl, rfl, rfl⟩,
    ⟨rfl, rfl, rfl, rfl⟩⟩

/-- C21. Common-subexpression reuse in the DAG table: for every table state
and every operator and operand nodes, if an operation node with that exact
operator and operands already exists among the first `next_node_id` entries
of `dag_nodes`, `get_op_node` returns such an existing node (the first one)
and leaves the table, `next_node_id` included, unchanged; `get_op_node`
returns whenever the table has room; whenever a call returns, a second call
with the same arguments returns the same node and creates nothing; and
building `a*b + (a*b)` from the empty table creates exactly the four nodes
`a`, `b`, `a*b` and `+`, both occurrences of `a*b` being node 2. -/
theorem C21_common_subexpression_reuse (t : DAGTable) (op_type : OpType)
    (left right : Nat) (raw raw2 : NodeData) :
    ((∃ i, i < t.next_node_id ∧ IsOpNode (t.dag_nodes i) op_type left right) →
      ∃ j, j < t.next_node_id ∧ IsOpNode (t.dag_nodes j) op_type left right ∧
        (∀ i, i < j → ¬ IsOpNode (t.dag_nodes i) op_type left right) ∧
        get_op_node t op_type left right raw = some (t, j)) ∧
    (t.next_node_id < MAX_NODES →
      ∃ t1 p, get_op_node t op_type left right raw = some (t1, p)) ∧
    (∀ t1 p, get_op_node t op_type left right raw = some (t1, p) →
      get_op_node t1 op_type left right raw2 = some (t1, p)) ∧
    (∀ (nodes0 : Nat → DAGNode) (ra rb r1 r2 r3 : NodeData),
      ∃ res,
        build_main { dag_nodes := nodes0, next_node_id := 0 } ra rb r1 r2 r3 = some res ∧
        res.table.next_node_id = 4 ∧
        res.node_a = 0 ∧ res.node_b = 1 ∧ res.node_mul_ab_1 = 2 ∧
        res.node_mul_ab_2 = 2 ∧ res.node_add = 3 ∧
        IsVarNode (res.table.dag_nodes 0) 'a' ∧ IsVarNode (res.table.dag_nodes 1) 'b' ∧
        IsOpNode (res.table.dag_nodes 2) OpType.OP_MUL 0 1 ∧
        IsOpNode (res.table.dag_nodes 3) OpType.OP_ADD 2 2) :=
  ⟨get_op_node_found t op_type left right raw,
    get_op_node_returns t op_type left right raw,
    fun t1 p h => get_op_node_again t op_type left right raw raw2 t1 p h,
    build_main_spec⟩

end DAG
